import Mathlib

set_option maxRecDepth 8000

/-!
Verification of the celestia-zk-da repository: a shallow embedding of the
sparse Merkle tree (`crates/merkle`), the zk guest transition program
(`crates/zk_guest_transition`), the blob schema (`crates/blob_schema`),
the chain verifier (`crates/verifier_lib`) and the state store
(`crates/state`), together with theorems about their stated properties.

Bytes are modelled as `Nat` values (< 256 in every value the programs
produce), byte strings as `List Nat`, and the 32-byte `Hash32` type as a
`List Nat` of length 32.  Machine integers (`u64`, `u32`) are `Nat` with
explicit `% 2 ^ w` where the source can overflow.  Fallible Rust code
returns `Option`/`Except`.
-/

deriving instance DecidableEq for Except

/-! ### SHA-256 (the `sha2` crate collaborator)

The repository hashes exclusively through `sha2::Sha256`.  We implement
SHA-256 (FIPS 180-4) executably over byte lists so that every hash the
embedded code produces is a concrete value. -/

/-- Reduce to a 32-bit word. -/
def u32mod (n : Nat) : Nat := n % 4294967296

/-- Right rotation of a 32-bit word. -/
def rotr32 (k x : Nat) : Nat := u32mod ((x >>> k) ||| (x <<< (32 - k)))

/-- SHA-256 round constants. -/
def shaK : List Nat :=
  [1116352408, 1899447441, 3049323471, 3921009573, 961987163,
   1508970993, 2453635748, 2870763221, 3624381080, 310598401,
   607225278, 1426881987, 1925078388, 2162078206, 2614888103,
   3248222580, 3835390401, 4022224774, 264347078, 604807628,
   770255983, 1249150122, 1555081692, 1996064986, 2554220882,
   2821834349, 2952996808, 3210313671, 3336571891, 3584528711,
   113926993, 338241895, 666307205, 773529912, 1294757372,
   1396182291, 1695183700, 1986661051, 2177026350, 2456956037,
   2730485921, 2820302411, 3259730800, 3345764771, 3516065817,
   3600352804, 4094571909, 275423344, 430227734, 506948616,
   659060556, 883997877, 958139571, 1322822218, 1537002063,
   1747873779, 1955562222, 2024104815, 2227730452, 2361852424,
   2428436474, 2756734187, 3204031479, 3329325298]

/-- SHA-256 initial hash state. -/
def shaH0 : List Nat :=
  [1779033703, 3144134277, 1013904242,
   2773480762, 1359893119, 2600822924,
   528734635, 1541459225]

/-- Upper-case sigma 0. -/
def bigSigma0 (x : Nat) : Nat := rotr32 2 x ^^^ rotr32 13 x ^^^ rotr32 22 x

/-- Upper-case sigma 1. -/
def bigSigma1 (x : Nat) : Nat := rotr32 6 x ^^^ rotr32 11 x ^^^ rotr32 25 x

/-- Lower-case sigma 0. -/
def smallSigma0 (x : Nat) : Nat := rotr32 7 x ^^^ rotr32 18 x ^^^ (x >>> 3)

/-- Lower-case sigma 1. -/
def smallSigma1 (x : Nat) : Nat := rotr32 17 x ^^^ rotr32 19 x ^^^ (x >>> 10)

/-- Group bytes into big-endian 32-bit words. -/
def bytesToWordsBE : List Nat → List Nat
  | b0 :: b1 :: b2 :: b3 :: rest =>
      (((b0 * 256 + b1) * 256 + b2) * 256 + b3) :: bytesToWordsBE rest
  | _ => []

/-- Extend the 16-word message schedule to 64 words. -/
def extendSchedule : Nat → List Nat → List Nat
  | 0, w => w
  | n + 1, w =>
      let t := w.length
      let nw := u32mod (smallSigma1 (w.getD (t - 2) 0) + w.getD (t - 7) 0 +
                  smallSigma0 (w.getD (t - 15) 0) + w.getD (t - 16) 0)
      extendSchedule n (w ++ [nw])

/-- One SHA-256 round: state is the eight working variables a..h. -/
def shaRound (st : List Nat) (kw : Nat) : List Nat :=
  let a := st.getD 0 0
  let b := st.getD 1 0
  let c := st.getD 2 0
  let d := st.getD 3 0
  let e := st.getD 4 0
  let f := st.getD 5 0
  let g := st.getD 6 0
  let h := st.getD 7 0
  let ch := (e &&& f) ^^^ ((e ^^^ 0xffffffff) &&& g)
  let maj := (a &&& b) ^^^ (a &&& c) ^^^ (b &&& c)
  let t1 := u32mod (h + bigSigma1 e + ch + kw)
  let t2 := u32mod (bigSigma0 a + maj)
  [u32mod (t1 + t2), a, b, c, u32mod (d + t1), e, f, g]

/-- Compress a single 64-byte block into the hash state. -/
def compressBlock (block : List Nat) (h : List Nat) : List Nat :=
  let w := extendSchedule 48 (bytesToWordsBE block)
  let kw := List.zipWith (fun a b => u32mod (a + b)) shaK w
  let st := kw.foldl shaRound h
  List.zipWith (fun a b => u32mod (a + b)) h st

/-- The low 64 bits of a number as 8 big-endian bytes. -/
def beBytes8 (n : Nat) : List Nat :=
  [(n >>> 56) % 256, (n >>> 48) % 256, (n >>> 40) % 256, (n >>> 32) % 256,
   (n >>> 24) % 256, (n >>> 16) % 256, (n >>> 8) % 256, n % 256]

/-- SHA-256 padding: 0x80, zeros and the 64-bit bit length. -/
def padMessage (msg : List Nat) : List Nat :=
  msg ++ 0x80 :: (List.replicate ((119 - msg.length % 64) % 64) 0 ++ beBytes8 (8 * msg.length))

/-- Process `n` 64-byte blocks. -/
def processBlocks : Nat → List Nat → List Nat → List Nat
  | 0, _, h => h
  | n + 1, bytes, h => processBlocks n (bytes.drop 64) (compressBlock (bytes.take 64) h)

/-- Serialize the hash state as big-endian bytes. -/
def wordsToBytesBE : List Nat → List Nat
  | [] => []
  | w :: rest =>
      (w >>> 24) % 256 :: (w >>> 16) % 256 :: (w >>> 8) % 256 :: w % 256 :: wordsToBytesBE rest

/-- SHA-256 of a byte string, as 32 bytes. -/
def sha256 (msg : List Nat) : List Nat :=
  let padded := padMessage msg
  wordsToBytesBE (processBlocks (padded.length / 64) padded shaH0)

/-! ### The `merkle` crate (`crates/merkle/src/lib.rs`)

`Hash32` is the 32-byte hash type.  The sparse tree itself holds a
`HashMap<Hash32, Vec<u8>>` of leaves; we model the unordered map as an
association list whose keys are unique (the map invariant). -/

/-- A 32-byte hash value (`type Hash32 = [u8; 32]`). -/
abbrev Hash32 := List Nat

/-- Tree depth (`TREE_DEPTH = 160`). -/
def TREE_DEPTH : Nat := 160

/-- The empty/default hash for an empty subtree (`EMPTY_HASH = [0u8; 32]`). -/
def EMPTY_HASH : Hash32 := List.replicate 32 0

/-- Hash two child nodes to produce the parent hash (`hash_nodes`). -/
def hash_nodes (left right : Hash32) : Hash32 := sha256 (left ++ right)

/-- Hash a leaf value (`hash_leaf`): 0x00 prefix, then key hash, then value. -/
def hash_leaf (key : Hash32) (value : List Nat) : Hash32 := sha256 (0x00 :: (key ++ value))

/-- Hash a key to get its path in the tree (`hash_key`). -/
def hash_key (key : List Nat) : Hash32 := sha256 key

/-- Get the bit at a position in a hash; position 0 is the most significant
bit of byte 0 (`get_bit`). -/
def get_bit (hash : Hash32) (position : Nat) : Bool :=
  ((hash.getD (position / 8) 0 >>> (7 - position % 8)) &&& 1) == 1

/-- A Merkle proof for inclusion/exclusion (`MerkleProof`). -/
structure MerkleProof where
  key : Hash32
  value : Option (List Nat)
  siblings : List Hash32
deriving DecidableEq

/-- Witness for updating a key in the tree (`UpdateWitness`). -/
structure UpdateWitness where
  key : Hash32
  old_value : Option (List Nat)
  new_value : Option (List Nat)
  siblings : List Hash32
deriving DecidableEq

/-- The leaf-to-root loop shared verbatim by `MerkleProof::compute_root`,
`UpdateWitness::compute_old_root`, `UpdateWitness::compute_new_root` and the
guest's `compute_root`: at step `i` the sibling sits at depth
`TREE_DEPTH - 1 - i` and the key bit at that depth picks the side. -/
def foldSiblingsFrom (key : Hash32) : Nat → Hash32 → List Hash32 → Hash32
  | _, cur, [] => cur
  | i, cur, s :: rest =>
      let depth := TREE_DEPTH - 1 - i
      foldSiblingsFrom key (i + 1)
        (if get_bit key depth then hash_nodes s cur else hash_nodes cur s) rest

/-- The leaf hash a compute-root loop starts from: `hash_leaf` for a present
value, `EMPTY_HASH` for an absent one. -/
def leafHashOf (key : Hash32) : Option (List Nat) → Hash32
  | some v => hash_leaf key v
  | none => EMPTY_HASH

/-- `MerkleProof::compute_root`. -/
def MerkleProof.compute_root (p : MerkleProof) : Hash32 :=
  foldSiblingsFrom p.key 0 (leafHashOf p.key p.value) p.siblings

/-- `MerkleProof::verify`: the recomputed root equals the claimed root. -/
def MerkleProof.verify (p : MerkleProof) (root : Hash32) : Bool :=
  p.compute_root == root

/-- `UpdateWitness::compute_old_root`. -/
def UpdateWitness.compute_old_root (w : UpdateWitness) : Hash32 :=
  foldSiblingsFrom w.key 0 (leafHashOf w.key w.old_value) w.siblings

/-- `UpdateWitness::compute_new_root`. -/
def UpdateWitness.compute_new_root (w : UpdateWitness) : Hash32 :=
  foldSiblingsFrom w.key 0 (leafHashOf w.key w.new_value) w.siblings

/-- The precomputed empty-subtree chain seen from the bottom:
`emptyHashAux 0` is the empty leaf, each step hashes a level pair. -/
def emptyHashAux : Nat → Hash32
  | 0 => EMPTY_HASH
  | n + 1 => hash_nodes (emptyHashAux n) (emptyHashAux n)

/-- `empty_hashes[depth]` as precomputed in `SparseMerkleTree::new`:
`E[TREE_DEPTH] = 0^32` and `E[i] = H(E[i+1] ‖ E[i+1])`. -/
def emptyHashes (depth : Nat) : Hash32 := emptyHashAux (TREE_DEPTH - depth)

/-- The 160-bit path of a key hash, bit 0 first (`get_bit` over `0..TREE_DEPTH`). -/
def pathOf (keyHash : Hash32) : List Bool :=
  (List.range TREE_DEPTH).map (get_bit keyHash)

/-- A leaf entry carried through subtree computations: its full path and its
leaf hash (the `(Vec<bool>, Hash32)` pairs of the source). -/
abbrev Entry := List Bool × Hash32

/-- `SparseMerkleTree::compute_subtree_from_leaves`, with an explicit
structural fuel equal to `TREE_DEPTH - depth` at every call site: at leaf
level take the first entry, an empty list is the empty subtree, otherwise
hash the two half-subtrees obtained by partitioning on the bit at `depth`. -/
def computeSubtreeFromLeaves : Nat → Nat → List Entry → Hash32
  | fuel, depth, leaves =>
      if depth = TREE_DEPTH then
        match leaves with
        | [] => EMPTY_HASH
        | (_, h) :: _ => h
      else if leaves.isEmpty then emptyHashes depth
      else
        match fuel with
        | 0 => EMPTY_HASH
        | fuel' + 1 =>
            let lefts := leaves.filter (fun e => !(e.1.getD depth false))
            let rights := leaves.filter (fun e => e.1.getD depth false)
            let left_hash := if lefts.isEmpty then emptyHashes (depth + 1)
              else computeSubtreeFromLeaves fuel' (depth + 1) lefts
            let right_hash := if rights.isEmpty then emptyHashes (depth + 1)
              else computeSubtreeFromLeaves fuel' (depth + 1) rights
            hash_nodes left_hash right_hash

/-- `SparseMerkleTree::compute_subtree_hash`: the hash of the subtree of
`entryList` under `pref ++ [direction]`, rooted at `depth + 1`. -/
def computeSubtreeHash (entryList : List Entry) (pref : List Bool)
    (direction : Bool) (depth : Nat) : Hash32 :=
  let matching := entryList.filter (fun e =>
    decide (depth < e.1.length) && decide (e.1.take pref.length = pref) &&
      (e.1.getD pref.length false == direction))
  if matching.isEmpty then emptyHashes (depth + 1)
  else computeSubtreeFromLeaves (TREE_DEPTH - (depth + 1)) (depth + 1) matching

/-- The `(path, leaf_hash)` entries of a leaf list. -/
def entriesOf (leaves : List (Hash32 × List Nat)) : List Entry :=
  leaves.map (fun e => (pathOf e.1, hash_leaf e.1 e.2))

/-- `SparseMerkleTree::compute_siblings`: for each depth from the bottom up,
the hash of the subtree on the opposite side of the target path, computed
from all leaves other than the target key. -/
def computeSiblings (leaves : List (Hash32 × List Nat)) (keyHash : Hash32) : List Hash32 :=
  let targetPath := pathOf keyHash
  let leafEntries := entriesOf (leaves.filter (fun e => e.1 ≠ keyHash))
  (List.range TREE_DEPTH).reverse.map (fun depth =>
    computeSubtreeHash leafEntries (targetPath.take depth) (!(targetPath.getD depth false)) depth)

/-- Sparse Merkle tree state: the leaf map, as an association list with
unique keys (the source stores a `HashMap<Hash32, Vec<u8>>`). -/
structure SparseMerkleTree where
  leaves : List (Hash32 × List Nat)
deriving DecidableEq

/-- Look a key hash up in the leaf map (`self.leaves.get(&key_hash)`). -/
def lookupLeaf : List (Hash32 × List Nat) → Hash32 → Option (List Nat)
  | [], _ => none
  | e :: rest, keyHash => if e.1 = keyHash then some e.2 else lookupLeaf rest keyHash

/-- The root of a leaf map.  `SparseMerkleTree::compute_root` computes the
same bottom-up node hashes level by level over the unordered map (grouping
children under their parent prefix, empty children taking `E[depth+1]`,
empty map giving `E[0]`), which is exactly the bottom-up recursion
`compute_subtree_from_leaves` applied to all leaves at depth 0; we embed it
through that recursion, and `rootFromLeaves_perm` below discharges the
order-independence the unordered map relies on. -/
def rootFromLeaves (leaves : List (Hash32 × List Nat)) : Hash32 :=
  computeSubtreeFromLeaves TREE_DEPTH 0 (entriesOf leaves)

/-- `SparseMerkleTree::root`: the cached root, which the source keeps equal
to `compute_root()` of the current leaf map. -/
def SparseMerkleTree.root (t : SparseMerkleTree) : Hash32 :=
  rootFromLeaves t.leaves

/-- `HashMap::insert` on the association-list model: the updated map holds
`value` at `key_hash` and is otherwise unchanged (the unordered map has no
position; we place the updated binding last). -/
def insertAssoc (leaves : List (Hash32 × List Nat)) (keyHash : Hash32)
    (value : List Nat) : List (Hash32 × List Nat) :=
  leaves.filter (fun e => e.1 ≠ keyHash) ++ [(keyHash, value)]

/-- `HashMap::remove` on the association-list model. -/
def removeAssoc (leaves : List (Hash32 × List Nat)) (keyHash : Hash32) :
    List (Hash32 × List Nat) :=
  leaves.filter (fun e => e.1 ≠ keyHash)

/-- `SparseMerkleTree::insert_by_hash`: read the old value, compute the
siblings, build the witness, then mutate the leaf map.  Returns the witness
and the mutated tree. -/
def SparseMerkleTree.insert_by_hash (t : SparseMerkleTree) (keyHash : Hash32)
    (value : List Nat) : UpdateWitness × SparseMerkleTree :=
  let old_value := lookupLeaf t.leaves keyHash
  let siblings := computeSiblings t.leaves keyHash
  let witness : UpdateWitness :=
    { key := keyHash, old_value := old_value, new_value := some value, siblings := siblings }
  (witness, ⟨insertAssoc t.leaves keyHash value⟩)

/-- `SparseMerkleTree::delete_by_hash`: read the old value, compute the
siblings, build the witness (new value `None`), then remove the leaf. -/
def SparseMerkleTree.delete_by_hash (t : SparseMerkleTree) (keyHash : Hash32) :
    UpdateWitness × SparseMerkleTree :=
  let old_value := lookupLeaf t.leaves keyHash
  let siblings := computeSiblings t.leaves keyHash
  let witness : UpdateWitness :=
    { key := keyHash, old_value := old_value, new_value := none, siblings := siblings }
  (witness, ⟨removeAssoc t.leaves keyHash⟩)

/-- `SparseMerkleTree::get_proof_by_hash`. -/
def SparseMerkleTree.get_proof_by_hash (t : SparseMerkleTree) (keyHash : Hash32) : MerkleProof :=
  { key := keyHash,
    value := lookupLeaf t.leaves keyHash,
    siblings := computeSiblings t.leaves keyHash }

/-! ### Bincode primitives (the `bincode` crate collaborator)

The repository serializes with `bincode::serialize`/`deserialize` (bincode
1.x legacy options): fixed-width little-endian integers, `Vec<u8>` with a
`u64` length, `Option` with a one-byte tag, trailing bytes tolerated on
deserialize. -/

/-- A `u64` as 8 little-endian bytes (its low 64 bits). -/
def leBytes8 (n : Nat) : List Nat :=
  [n % 256, (n >>> 8) % 256, (n >>> 16) % 256, (n >>> 24) % 256,
   (n >>> 32) % 256, (n >>> 40) % 256, (n >>> 48) % 256, (n >>> 56) % 256]

/-- Read a little-endian number from bytes. -/
def leNum : List Nat → Nat
  | [] => 0
  | b :: rest => b % 256 + 256 * leNum rest

/-- Take `n` bytes off the front, failing on underrun (bincode EOF error). -/
def readBytes (n : Nat) (data : List Nat) : Option (List Nat × List Nat) :=
  if n ≤ data.length then some (data.take n, data.drop n) else none

/-- Read one byte. -/
def readByte (data : List Nat) : Option (Nat × List Nat) :=
  match data with
  | [] => none
  | b :: rest => some (b, rest)

/-- Read a fixed-width little-endian `u64`. -/
def readU64 (data : List Nat) : Option (Nat × List Nat) :=
  match readBytes 8 data with
  | some (bs, rest) => some (leNum bs, rest)
  | none => none

/-- Read a `Vec<u8>`: a `u64` length then that many bytes. -/
def readVecU8 (data : List Nat) : Option (List Nat × List Nat) :=
  match readU64 data with
  | some (n, rest) => readBytes n rest
  | none => none

/-- Serialize a `Vec<u8>`. -/
def writeVecU8 (v : List Nat) : List Nat := leBytes8 v.length ++ v

/-! ### The guest program (`crates/zk_guest_transition/src/main.rs`)

The guest re-declares `UpdateWitness`, the operation types and the
compute-root algorithm; we embed those declarations under a `Guest` prefix,
against the same byte/hash model.  `assert!` failures abort the proof with
no committed output, modelled as `none`. -/

/-- Operation type for verification (`OperationType`). -/
inductive OperationType where
  | Set : OperationType
  | CreateAccount (initial_balance : Nat) : OperationType
  | Transfer (from_key to_key : List Nat) (amount : Nat) : OperationType
  | Mint (amount : Nat) : OperationType
  | Burn (amount : Nat) : OperationType
deriving DecidableEq

/-- A verifiable operation (`VerifiableOperation`). -/
structure VerifiableOperation where
  op_type : OperationType
  key : List Nat
  old_value : Option (List Nat)
  new_value : Option (List Nat)
  witness_index : Nat
deriving DecidableEq

/-- Account state for the finance app (`Account { balance: u64, nonce: u64 }`). -/
structure Account where
  balance : Nat
  nonce : Nat
deriving DecidableEq

/-- `bincode::serialize` of an `Account`: two fixed-width little-endian u64s. -/
def Account.encode (a : Account) : List Nat := leBytes8 a.balance ++ leBytes8 a.nonce

/-- `Account::decode` (`bincode::deserialize(data).ok()`): reads two u64s,
tolerating trailing bytes, failing on underrun. -/
def Account.decode (data : List Nat) : Option Account :=
  match readU64 data with
  | some (balance, rest) =>
      match readU64 rest with
      | some (nonce, _) => some { balance := balance, nonce := nonce }
      | none => none
  | none => none

/-- Transition input from the host (`TransitionInput`). -/
structure TransitionInput where
  prev_root : Hash32
  public_inputs : List Nat
  private_inputs : List Nat
  witnesses : List UpdateWitness
  operations : List VerifiableOperation
deriving DecidableEq

/-- Transition output committed to the proof (`TransitionOutput`). -/
structure TransitionOutput where
  prev_root : Hash32
  new_root : Hash32
  public_inputs_hash : Hash32
  public_outputs : List Nat
deriving DecidableEq

/-- The guest's `compute_root`: same leaf-to-root loop as the merkle crate,
re-declared in the guest source. -/
def GuestComputeRoot (key : Hash32) (value : Option (List Nat))
    (siblings : List Hash32) : Hash32 :=
  foldSiblingsFrom key 0 (leafHashOf key value) siblings

/-- The guest's `hash_public_inputs`: SHA-256 over `prev_root ‖ public_inputs`. -/
def hash_public_inputs (prev_root : Hash32) (public_inputs : List Nat) : Hash32 :=
  sha256 (prev_root ++ public_inputs)

/-- The guest's `verify_transfer` business rule: sender covered and debited,
receiver credited, sender nonce bumped, receiver nonce unchanged. -/
def verify_transfer (from_old from_new to_old to_new : Account) (amount : Nat) : Bool :=
  if from_old.balance < amount then false
  else if from_new.balance ≠ from_old.balance - amount then false
  else if to_new.balance ≠ to_old.balance + amount then false
  else if from_new.nonce ≠ from_old.nonce + 1 then false
  else if to_new.nonce ≠ to_old.nonce then false
  else true

/-- The guest's `verify_operation`.  For `Transfer` the source picks the
first witness carrying both an old and a new value, checks only the sender
balance arithmetic on it, and returns `true` when that check fails or no
such witness exists (its own comments call this simplified verification). -/
def verify_operation (op : VerifiableOperation) (witnesses : List UpdateWitness) : Bool :=
  match op.op_type with
  | OperationType.Set => true
  | OperationType.CreateAccount initial_balance =>
      match op.new_value with
      | some new_val =>
          match Account.decode new_val with
          | some account => decide (account.balance = initial_balance) && decide (account.nonce = 0)
          | none => false
      | none => false
  | OperationType.Transfer _ _ amount =>
      let from_witness := witnesses.find? (fun w =>
        w.old_value.isSome && w.new_value.isSome)
      match from_witness with
      | some fw =>
          match fw.old_value, fw.new_value with
          | some old_data, some new_data =>
              match Account.decode old_data, Account.decode new_data with
              | some old_acc, some new_acc =>
                  if amount ≤ old_acc.balance ∧ new_acc.balance = old_acc.balance - amount
                  then true
                  else true
              | _, _ => true
          | _, _ => true
      | none => true
  | OperationType.Mint amount =>
      match op.old_value, op.new_value with
      | some old_val, some new_val =>
          match Account.decode old_val, Account.decode new_val with
          | some old_acc, some new_acc => decide (new_acc.balance = old_acc.balance + amount)
          | _, _ => false
      | _, _ => false
  | OperationType.Burn amount =>
      match op.old_value, op.new_value with
      | some old_val, some new_val =>
          match Account.decode old_val, Account.decode new_val with
          | some old_acc, some new_acc =>
              decide (amount ≤ old_acc.balance) && decide (new_acc.balance = old_acc.balance - amount)
          | _, _ => false
      | _, _ => false

/-- The guest main loop over witnesses: assert the recomputed old root
matches the running root, then advance to the recomputed new root; a failed
assertion aborts the proof. -/
def guestWitnessLoop : Hash32 → List UpdateWitness → Option Hash32
  | current_root, [] => some current_root
  | current_root, w :: rest =>
      if GuestComputeRoot w.key w.old_value w.siblings = current_root
      then guestWitnessLoop (GuestComputeRoot w.key w.new_value w.siblings) rest
      else none

/-- The guest `main`: read the input, assert every operation's business
logic, fold the witnesses from `prev_root`, and commit the output; a failed
assertion commits nothing (`none`). -/
def guestMain (input : TransitionInput) : Option TransitionOutput :=
  if input.operations.all (fun op => verify_operation op input.witnesses) then
    match guestWitnessLoop input.prev_root input.witnesses with
    | some new_root =>
        some { prev_root := input.prev_root,
               new_root := new_root,
               public_inputs_hash := hash_public_inputs input.prev_root input.public_inputs,
               public_outputs := [] }
    | none => none
  else none

/-! ### The `blob_schema` crate (`crates/blob_schema/src/lib.rs`) -/

/-- Current schema version (`SCHEMA_VERSION = 1`). -/
def SCHEMA_VERSION : Nat := 1

/-- Blob encoding/decoding errors (`BlobError`); the bincode error payload
is dropped. -/
inductive BlobError where
  | Encoding : BlobError
  | InvalidVersion (expected got : Nat) : BlobError
  | InvalidHash : BlobError
deriving DecidableEq

/-- Transition blob version 1 (`TransitionBlobV1`). -/
structure TransitionBlobV1 where
  version : Nat
  app_id : List Nat
  sequence : Nat
  prev_root : Hash32
  new_root : Hash32
  public_inputs : List Nat
  public_outputs : List Nat
  proof : List Nat
  program_hash : Hash32
  timestamp : Option Nat
  sequencer_signature : Option (List Nat)
deriving DecidableEq

/-- `TransitionBlobV1::encode`: bincode in declared field order — `u8`
version, length-prefixed vectors, fixed-width little-endian `u64`s, raw
32-byte arrays, one-byte-tagged options. -/
def TransitionBlobV1.encode (b : TransitionBlobV1) : List Nat :=
  [b.version % 256] ++ writeVecU8 b.app_id ++ leBytes8 b.sequence ++
  b.prev_root ++ b.new_root ++ writeVecU8 b.public_inputs ++
  writeVecU8 b.public_outputs ++ writeVecU8 b.proof ++ b.program_hash ++
  (match b.timestamp with
   | none => [0]
   | some ts => 1 :: leBytes8 ts) ++
  (match b.sequencer_signature with
   | none => [0]
   | some sig => 1 :: writeVecU8 sig)

/-- Bincode deserialization of a `TransitionBlobV1` (trailing bytes
tolerated, as by `bincode::deserialize`). -/
def decodeBlobFields (bytes : List Nat) : Option TransitionBlobV1 :=
  match readByte bytes with
  | none => none
  | some (version, r1) =>
    match readVecU8 r1 with
    | none => none
    | some (app_id, r2) =>
      match readU64 r2 with
      | none => none
      | some (sequence, r3) =>
        match readBytes 32 r3 with
        | none => none
        | some (prev_root, r4) =>
          match readBytes 32 r4 with
          | none => none
          | some (new_root, r5) =>
            match readVecU8 r5 with
            | none => none
            | some (public_inputs, r6) =>
              match readVecU8 r6 with
              | none => none
              | some (public_outputs, r7) =>
                match readVecU8 r7 with
                | none => none
                | some (proof, r8) =>
                  match readBytes 32 r8 with
                  | none => none
                  | some (program_hash, r9) =>
                    match readByte r9 with
                    | none => none
                    | some (tag1, r10) =>
                      match (if tag1 = 0 then some (none, r10)
                             else if tag1 = 1 then
                               match readU64 r10 with
                               | some (ts, r) => some (some ts, r)
                               | none => none
                             else none) with
                      | none => none
                      | some (timestamp, r11) =>
                        match readByte r11 with
                        | none => none
                        | some (tag2, r12) =>
                          match (if tag2 = 0 then some (none, r12)
                                 else if tag2 = 1 then
                                   match readVecU8 r12 with
                                   | some (sig, r) => some (some sig, r)
                                   | none => none
                                 else none) with
                          | none => none
                          | some (sequencer_signature, _) =>
                            some { version := version, app_id := app_id,
                                   sequence := sequence, prev_root := prev_root,
                                   new_root := new_root, public_inputs := public_inputs,
                                   public_outputs := public_outputs, proof := proof,
                                   program_hash := program_hash, timestamp := timestamp,
                                   sequencer_signature := sequencer_signature }

/-- `TransitionBlobV1::decode`: bincode-deserialize, then reject any version
other than `SCHEMA_VERSION` with `InvalidVersion`. -/
def TransitionBlobV1.decode (bytes : List Nat) : Except BlobError TransitionBlobV1 :=
  match decodeBlobFields bytes with
  | none => Except.error BlobError.Encoding
  | some blob =>
      if blob.version ≠ SCHEMA_VERSION then
        Except.error (BlobError.InvalidVersion SCHEMA_VERSION blob.version)
      else
        Except.ok blob

/-! ### The `verifier_lib` crate (`crates/verifier_lib/src/lib.rs`)

`verify_range` is embedded from the point after the DA fetch: its input is
the fetched `(height, blob bytes)` list.  The zkVM proof verifier and the
default guest program hash are external collaborators
(`TransitionVerifier::verify`, `program_hash()`), passed as parameters. -/

/-- Lower-case hex encoding of bytes (`hex::encode`). -/
def hexDigitChar (n : Nat) : Char :=
  if n < 10 then Char.ofNat (48 + n) else Char.ofNat (87 + n)

/-- Hex string of a byte list. -/
def hexEncode (bytes : List Nat) : String :=
  String.mk (bytes.flatMap (fun b => [hexDigitChar (b / 16), hexDigitChar (b % 16)]))

/-- Verification errors (`VerifyError`); the Celestia transport variant is
out of the modelled scope. -/
inductive VerifyError where
  | BlobDecode (e : BlobError) : VerifyError
  | ProofInvalid (sequence : Nat) (message : String) : VerifyError
  | RootChainBroken (sequence : Nat) (expected actual : String) : VerifyError
  | ProgramHashMismatch (sequence : Nat) : VerifyError
  | NoBlobsFound : VerifyError
deriving DecidableEq

/-- Result of verification (`VerificationResult`). -/
structure VerificationResult where
  total_transitions : Nat
  first_root : Hash32
  latest_root : Hash32
  first_sequence : Nat
  last_sequence : Nat
  height_range : Nat × Nat
  unverified_transitions : List Nat
deriving DecidableEq

/-- Configuration for verification (`VerifyConfig`), restricted to the
fields `verify_range` consults. -/
structure VerifyConfig where
  expected_program_hash : Option Hash32
  skip_proof_verification : Bool
  expected_first_root : Option Hash32
deriving DecidableEq

/-- Insert into a run sorted by sequence, keeping earlier elements first on
ties. -/
def insertBySeq (x : Nat × TransitionBlobV1) :
    List (Nat × TransitionBlobV1) → List (Nat × TransitionBlobV1)
  | [] => [x]
  | y :: ys => if y.2.sequence ≤ x.2.sequence then y :: insertBySeq x ys
               else x :: y :: ys

/-- `transitions.sort_by_key(|(_, t)| t.sequence)`: Rust's stable sort by
sequence.  A stable sort's output is determined by the comparison key and
the input order, so this insertion sort computes the same list. -/
def sortBySeq (l : List (Nat × TransitionBlobV1)) : List (Nat × TransitionBlobV1) :=
  l.foldl (fun acc x => insertBySeq x acc) []

/-- Decode every fetched blob, propagating the first `BlobError` as
`VerifyError::BlobDecode` (the `?` in the decode loop). -/
def decodeAllBlobs : List (Nat × List Nat) →
    Except VerifyError (List (Nat × TransitionBlobV1))
  | [] => Except.ok []
  | (height, data) :: rest =>
      match TransitionBlobV1.decode data with
      | Except.error e => Except.error (VerifyError.BlobDecode e)
      | Except.ok t =>
          match decodeAllBlobs rest with
          | Except.error e => Except.error e
          | Except.ok ts => Except.ok ((height, t) :: ts)

/-- Accumulated loop state of `verify_range`: running root, last sequence,
last height, unverified sequences (in push order). -/
structure VerifyLoopState where
  current_root : Hash32
  last_sequence : Nat
  last_height : Nat
  unverified : List Nat
deriving DecidableEq

/-- The per-transition body of `verify_range`: program-hash check, root
continuity check, proof verification (skipped when configured or when the
proof is empty, the latter recorded as unverified). -/
def verifyLoop (expectedProgramHash : Hash32) (skip : Bool)
    (verifyProof : List Nat → Except String TransitionOutput) :
    VerifyLoopState → List (Nat × TransitionBlobV1) →
    Except VerifyError VerifyLoopState
  | st, [] => Except.ok st
  | st, (height, transition) :: rest =>
      if transition.program_hash ≠ expectedProgramHash then
        Except.error (VerifyError.ProgramHashMismatch transition.sequence)
      else if transition.prev_root ≠ st.current_root then
        Except.error (VerifyError.RootChainBroken transition.sequence
          (hexEncode st.current_root) (hexEncode transition.prev_root))
      else
        match (if ¬skip ∧ transition.proof ≠ [] then
                 match verifyProof transition.proof with
                 | Except.ok output =>
                     if output.prev_root ≠ transition.prev_root ∨
                        output.new_root ≠ transition.new_root then
                       Except.error (VerifyError.ProofInvalid transition.sequence
                         "proof output mismatch")
                     else Except.ok st.unverified
                 | Except.error e =>
                     Except.error (VerifyError.ProofInvalid transition.sequence e)
               else if transition.proof = [] then
                 Except.ok (st.unverified ++ [transition.sequence])
               else Except.ok st.unverified) with
        | Except.error e => Except.error e
        | Except.ok unverified =>
            verifyLoop expectedProgramHash skip verifyProof
              { current_root := transition.new_root,
                last_sequence := transition.sequence,
                last_height := height,
                unverified := unverified } rest

/-- `ChainVerifier::verify_range`, from the fetched `(height, bytes)` list
on: empty fetch fails, every blob is decoded, entries are stable-sorted by
sequence, and the chain is walked from the configured first root (or the
first entry's `prev_root`).  `defaultProgramHash` stands for the external
`program_hash()` and `verifyProof` for `TransitionVerifier::verify`. -/
def verify_range (defaultProgramHash : Hash32)
    (verifyProof : List Nat → Except String TransitionOutput)
    (config : VerifyConfig) (blobs : List (Nat × List Nat)) :
    Except VerifyError VerificationResult :=
  if blobs.isEmpty then Except.error VerifyError.NoBlobsFound
  else
    match decodeAllBlobs blobs with
    | Except.error e => Except.error e
    | Except.ok decoded =>
        let transitions := sortBySeq decoded
        let expected_program_hash := config.expected_program_hash.getD defaultProgramHash
        match transitions with
        | [] => Except.error VerifyError.NoBlobsFound
        | first :: _ =>
            let current_root := config.expected_first_root.getD first.2.prev_root
            let first_root := current_root
            let first_sequence := first.2.sequence
            let first_height := first.1
            match verifyLoop expected_program_hash config.skip_proof_verification
                verifyProof
                { current_root := current_root, last_sequence := first_sequence,
                  last_height := first_height, unverified := [] } transitions with
            | Except.error e => Except.error e
            | Except.ok st =>
                Except.ok { total_transitions := transitions.length,
                            first_root := first_root,
                            latest_root := st.current_root,
                            first_sequence := first_sequence,
                            last_sequence := st.last_sequence,
                            height_range := (first_height, st.last_height),
                            unverified_transitions := st.unverified }

/-! ### The `state` crate (`crates/state/src/lib.rs`)

The sled database collaborator is a durable byte map with atomic flush; we
model it as an association list of byte-string keys, `flush` as the no-op
it is on an in-memory map. -/

/-- The reserved key `__merkle_tree__`. -/
def MERKLE_TREE_KEY : List Nat :=
  [95, 95, 109, 101, 114, 107, 108, 101, 95, 116, 114, 101, 101, 95, 95]

/-- The reserved key `__transition_index__`. -/
def TRANSITION_INDEX_KEY : List Nat :=
  [95, 95, 116, 114, 97, 110, 115, 105, 116, 105, 111, 110, 95, 105, 110, 100, 101, 120, 95, 95]

/-- `db.get` on the durable map model. -/
def dbGet : List (List Nat × List Nat) → List Nat → Option (List Nat)
  | [], _ => none
  | e :: rest, key => if e.1 = key then some e.2 else dbGet rest key

/-- `db.insert` on the durable map model. -/
def dbInsert (db : List (List Nat × List Nat)) (key value : List Nat) :
    List (List Nat × List Nat) :=
  db.filter (fun e => e.1 ≠ key) ++ [(key, value)]

/-- `SparseMerkleTree::serialize`: bincode of `{ leaves: Vec<(Hash32, Vec<u8>)> }`,
in the map's iteration order. -/
def SparseMerkleTree.serialize (t : SparseMerkleTree) : List Nat :=
  leBytes8 t.leaves.length ++ t.leaves.flatMap (fun e => e.1 ++ writeVecU8 e.2)

/-- Read `n` serialized `(Hash32, Vec<u8>)` pairs. -/
def readTreeEntries : Nat → List Nat → Option (List (Hash32 × List Nat) × List Nat)
  | 0, rest => some ([], rest)
  | n + 1, data =>
      match readBytes 32 data with
      | none => none
      | some (keyHash, r1) =>
          match readVecU8 r1 with
          | none => none
          | some (value, r2) =>
              match readTreeEntries n r2 with
              | none => none
              | some (entries, rest) => some ((keyHash, value) :: entries, rest)

/-- Errors of the state crate (`StateError`), payloads dropped. -/
inductive StateError where
  | Database : StateError
  | Serialization : StateError
  | Merkle : StateError
  | KeyNotFound : StateError
deriving DecidableEq

/-- `SparseMerkleTree::deserialize`. -/
def SparseMerkleTree.deserialize (data : List Nat) : Except StateError SparseMerkleTree :=
  match readU64 data with
  | none => Except.error StateError.Merkle
  | some (count, rest) =>
      match readTreeEntries count rest with
      | none => Except.error StateError.Merkle
      | some (entries, _) => Except.ok ⟨entries⟩

/-- State store with Merkle commitment (`StateStore`). -/
structure StateStore where
  db : List (List Nat × List Nat)
  tree : SparseMerkleTree
  transition_index : Nat
deriving DecidableEq

/-- `[0u8; 8].try_into()` on a byte string: succeeds exactly on length 8. -/
def tryInto8 (data : List Nat) : Option (List Nat) :=
  if data.length = 8 then some data else none

/-- The transition-index load in `StateStore::open`:
`u64::from_le_bytes(data.as_ref().try_into().unwrap_or([0; 8]))` for a
present value, `0` for an absent one. -/
def loadTransitionIndex (data : Option (List Nat)) : Nat :=
  match data with
  | none => 0
  | some d => leNum ((tryInto8 d).getD (List.replicate 8 0))

/-- `StateStore::open` against the durable map found at the path: load the
tree if persisted, then the transition index. -/
def StateStore.open (db : List (List Nat × List Nat)) : Except StateError StateStore :=
  match dbGet db MERKLE_TREE_KEY with
  | some data =>
      match SparseMerkleTree.deserialize data with
      | Except.error e => Except.error e
      | Except.ok tree =>
          Except.ok { db := db, tree := tree,
                      transition_index := loadTransitionIndex (dbGet db TRANSITION_INDEX_KEY) }
  | none =>
      Except.ok { db := db, tree := ⟨[]⟩,
                  transition_index := loadTransitionIndex (dbGet db TRANSITION_INDEX_KEY) }

/-- `StateStore::commit`: bump the in-memory transition index, persist the
serialized tree and the (bumped) index, flush, and return the root. -/
def StateStore.commit (s : StateStore) : StateStore × Hash32 :=
  let transition_index := s.transition_index + 1
  let tree_data := s.tree.serialize
  let db1 := dbInsert s.db MERKLE_TREE_KEY tree_data
  let db2 := dbInsert db1 TRANSITION_INDEX_KEY (leBytes8 transition_index)
  ({ db := db2, tree := s.tree, transition_index := transition_index }, s.tree.root)

/-! ### Helper lemmas -/

instance : Inhabited UpdateWitness := ⟨⟨[], none, none, []⟩⟩

instance : Inhabited VerifiableOperation := ⟨⟨OperationType.Set, [], none, none, 0⟩⟩

/-- Reading a fresh binding back from the durable map. -/
theorem dbGet_dbInsert_self (db : List (List Nat × List Nat)) (key value : List Nat) :
    dbGet (dbInsert db key value) key = some value := by
  induction db with
  | nil => simp [dbGet, dbInsert]
  | cons e rest ih =>
      by_cases h : e.1 = key
      · simpa [dbInsert, h] using ih
      · simpa [dbInsert, dbGet, h] using ih

/-- Inserting under a different key does not change a read. -/
theorem dbGet_dbInsert_ne (db : List (List Nat × List Nat)) (key key' value : List Nat)
    (h : key ≠ key') : dbGet (dbInsert db key' value) key = dbGet db key := by
  induction db with
  | nil => simp [dbGet, dbInsert, Ne.symm h]
  | cons e rest ih =>
      by_cases he : e.1 = key'
      · have hek : e.1 ≠ key := by rw [he]; exact Ne.symm h
        simpa [dbInsert, dbGet, List.filter_cons, he, hek, Ne.symm h] using ih
      · by_cases hk : e.1 = key
        · simp [dbInsert, dbGet, List.filter_cons, he, hk, h]
        · simpa [dbInsert, dbGet, List.filter_cons, he, hk, h] using ih

/-! ### Claim theorems: guest and state store -/

/-- C9: the guest's `compute_root` is extensionally the merkle crate's: on
every key hash, optional value and sibling list it agrees with
`MerkleProof::compute_root`, with `UpdateWitness::compute_old_root` when the
value is taken as the old value, and with `UpdateWitness::compute_new_root`
when the value is taken as the new value. -/
theorem C9_guest_compute_root_agrees (key : Hash32) (value : Option (List Nat))
    (siblings : List Hash32) (newv oldv : Option (List Nat)) :
    GuestComputeRoot key value siblings =
      MerkleProof.compute_root ⟨key, value, siblings⟩ ∧
    GuestComputeRoot key value siblings =
      UpdateWitness.compute_old_root ⟨key, value, newv, siblings⟩ ∧
    GuestComputeRoot key value siblings =
      UpdateWitness.compute_new_root ⟨key, oldv, value, siblings⟩ :=
  ⟨rfl, rfl, rfl⟩

/-- C10: when `StateStore::open` finds a persisted `__transition_index__`
value whose length is not 8 bytes, the `unwrap_or([0; 8])` turns it into
index 0 and no error is reported: any successful open yields index 0, and
with no persisted tree the open does succeed. -/
theorem C10_open_malformed_index_is_zero (db : List (List Nat × List Nat))
    (d : List Nat) (hidx : dbGet db TRANSITION_INDEX_KEY = some d)
    (hlen : d.length ≠ 8) :
    loadTransitionIndex (dbGet db TRANSITION_INDEX_KEY) = 0 ∧
    (∀ s, StateStore.open db = Except.ok s → s.transition_index = 0) ∧
    (dbGet db MERKLE_TREE_KEY = none →
      StateStore.open db = Except.ok ⟨db, ⟨[]⟩, 0⟩) := by
  have hload : loadTransitionIndex (dbGet db TRANSITION_INDEX_KEY) = 0 := by
    rw [hidx]
    simp [loadTransitionIndex, tryInto8, hlen, leNum, List.replicate]
  refine ⟨hload, ?_, ?_⟩
  · intro s hs
    cases htree : dbGet db MERKLE_TREE_KEY with
    | none =>
        simp [StateStore.open, htree] at hs
        rw [← hs]
        exact hload
    | some data =>
        cases hdes : SparseMerkleTree.deserialize data with
        | error e => simp [StateStore.open, htree, hdes] at hs
        | ok tree =>
            simp [StateStore.open, htree, hdes] at hs
            rw [← hs]
            exact hload
  · intro htree
    simp [StateStore.open, htree, hload]

/-- C10 witness: a store whose persisted index is the 3-byte value `[1, 2, 3]`
opens without error and with transition index 0. -/
theorem C10_open_malformed_index_is_zero_witness :
    dbGet [(TRANSITION_INDEX_KEY, [1, 2, 3])] TRANSITION_INDEX_KEY = some [1, 2, 3] ∧
    ([1, 2, 3] : List Nat).length ≠ 8 ∧
    StateStore.open [(TRANSITION_INDEX_KEY, [1, 2, 3])] =
      Except.ok ⟨[(TRANSITION_INDEX_KEY, [1, 2, 3])], ⟨[]⟩, 0⟩ :=
  ⟨by decide, by decide,
    (C10_open_malformed_index_is_zero [(TRANSITION_INDEX_KEY, [1, 2, 3])] [1, 2, 3]
      (by decide) (by decide)).2.2 (by decide)⟩

/-- C8 counterexample: on a fresh store with transition index 0, `commit`
writes the post-increment value 1 — not the pre-increment value 0 — under
`__transition_index__`. -/
theorem C8_commit_writes_postincrement_counterexample :
    dbGet (StateStore.commit ⟨[], ⟨[]⟩, 0⟩).1.db TRANSITION_INDEX_KEY =
      some (leBytes8 1) ∧
    leBytes8 1 ≠ leBytes8 0 := by
  constructor
  · decide
  · decide

/-- C8 amended: `commit` increments the in-memory transition index by
exactly one, persists the serialized trie and the transition index to the
durable map, flushes, and returns the current trie root — but the increment
happens before the persist, so the index value written to the durable map
is the post-increment value. -/
theorem C8_commit_persists_and_increments (s : StateStore) :
    (s.commit.1.transition_index = s.transition_index + 1) ∧
    (dbGet s.commit.1.db MERKLE_TREE_KEY = some s.tree.serialize) ∧
    (dbGet s.commit.1.db TRANSITION_INDEX_KEY = some (leBytes8 (s.transition_index + 1))) ∧
    (s.commit.2 = s.tree.root) := by
  refine ⟨rfl, ?_, ?_, rfl⟩
  · have hne : MERKLE_TREE_KEY ≠ TRANSITION_INDEX_KEY := by decide
    calc dbGet s.commit.1.db MERKLE_TREE_KEY
        = dbGet (dbInsert s.db MERKLE_TREE_KEY s.tree.serialize) MERKLE_TREE_KEY :=
          dbGet_dbInsert_ne _ _ _ _ hne
      _ = some s.tree.serialize := dbGet_dbInsert_self _ _ _
  · exact dbGet_dbInsert_self _ _ _

/-- The concrete guest input exhibiting the transfer-enforcement gap: one
witness whose old and new leaf values decode to the same account (balance
1000, nonce 0), and a transfer of 100 that therefore debits nothing. -/
def transferBugWitness : UpdateWitness :=
  { key := List.replicate 32 7,
    old_value := some (Account.encode ⟨1000, 0⟩),
    new_value := some (Account.encode ⟨1000, 0⟩),
    siblings := [] }

/-- The transition input around `transferBugWitness`: its previous root is
exactly the root the witness recomputes, so the Merkle chain holds, while
the transfer business rule is violated. -/
def transferBugInput : TransitionInput :=
  { prev_root := GuestComputeRoot transferBugWitness.key transferBugWitness.old_value
      transferBugWitness.siblings,
    public_inputs := [],
    private_inputs := [],
    witnesses := [transferBugWitness],
    operations := [{ op_type := OperationType.Transfer [97] [98] 100,
                     key := [97],
                     old_value := some (Account.encode ⟨1000, 0⟩),
                     new_value := some (Account.encode ⟨1000, 0⟩),
                     witness_index := 0 }] }

/-- C1: the guest commits an output for a transfer that violates the
claimed predicate.  The sender witness decodes to old and new accounts with
equal balance 1000 and equal nonce 0 under a transfer of amount 100 — the
guest's own `verify_transfer` business rule rejects exactly this pair — yet
`verify_operation` accepts the operation and `main` commits an output. -/
theorem C1_transfer_predicate_not_enforced :
    (Account.decode (Account.encode ⟨1000, 0⟩) = some ⟨1000, 0⟩) ∧
    verify_transfer ⟨1000, 0⟩ ⟨1000, 0⟩ ⟨1000, 0⟩ ⟨1000, 0⟩ 100 = false ∧
    verify_operation (transferBugInput.operations.getD 0 default)
      transferBugInput.witnesses = true ∧
    (guestMain transferBugInput).isSome = true := by
  refine ⟨by decide, by decide, by decide, ?_⟩
  have hops : transferBugInput.operations.all
      (fun op => verify_operation op transferBugInput.witnesses) = true := by decide
  have hloop : guestWitnessLoop transferBugInput.prev_root transferBugInput.witnesses =
      some (GuestComputeRoot transferBugWitness.key transferBugWitness.new_value
        transferBugWitness.siblings) := by
    simp [guestWitnessLoop, transferBugInput]
  simp [guestMain, hops, hloop]

/-! ### Bincode reader/writer round-trip lemmas -/

/-- Reading exactly the bytes that were written. -/
theorem readBytes_exact (l r : List Nat) (n : Nat) (h : l.length = n) :
    readBytes n (l ++ r) = some (l, r) := by
  subst h
  simp [readBytes, List.take_left, List.drop_left]

/-- Little-endian byte reconstruction below `2 ^ 64`. -/
theorem leNum_leBytes8 (n : Nat) (h : n < 18446744073709551616) :
    leNum (leBytes8 n) = n := by
  simp only [leNum, leBytes8, Nat.shiftRight_eq_div_pow]
  norm_num
  omega

/-- Reading back a fixed-width `u64`. -/
theorem readU64_leBytes8 (n : Nat) (r : List Nat) (h : n < 18446744073709551616) :
    readU64 (leBytes8 n ++ r) = some (n, r) := by
  have hb : readBytes 8 (leBytes8 n ++ r) = some (leBytes8 n, r) :=
    readBytes_exact _ _ _ (by simp [leBytes8])
  simp [readU64, hb, leNum_leBytes8 n h]

/-- Reading back a length-prefixed `Vec<u8>`. -/
theorem readVecU8_writeVecU8 (v : List Nat) (r : List Nat)
    (h : v.length < 18446744073709551616) :
    readVecU8 (writeVecU8 v ++ r) = some (v, r) := by
  have h1 : writeVecU8 v ++ r = leBytes8 v.length ++ (v ++ r) := by
    simp [writeVecU8]
  rw [h1]
  simp [readVecU8, readU64_leBytes8 v.length (v ++ r) h, readBytes_exact v r v.length rfl]

/-- Well-formedness of a blob as Rust data: every integer within its
machine width, every fixed 32-byte array of length 32, every vector short
enough for its `u64` length prefix. -/
def blobWF (b : TransitionBlobV1) : Prop :=
  b.version < 256 ∧ b.app_id.length < 18446744073709551616 ∧
  b.sequence < 18446744073709551616 ∧ b.prev_root.length = 32 ∧
  b.new_root.length = 32 ∧ b.public_inputs.length < 18446744073709551616 ∧
  b.public_outputs.length < 18446744073709551616 ∧
  b.proof.length < 18446744073709551616 ∧ b.program_hash.length = 32 ∧
  (∀ ts, b.timestamp = some ts → ts < 18446744073709551616) ∧
  (∀ sig, b.sequencer_signature = some sig → sig.length < 18446744073709551616)

instance (b : TransitionBlobV1) : Decidable (blobWF b) := by
  unfold blobWF
  have : ∀ o : Option Nat, Decidable (∀ ts, o = some ts → ts < 18446744073709551616) := by
    intro o
    cases o with
    | none => exact isTrue (by intro ts h; cases h)
    | some x =>
        by_cases hx : x < 18446744073709551616
        · exact isTrue (by intro ts h; cases h; exact hx)
        · exact isFalse (by intro h; exact hx (h x rfl))
  have : ∀ o : Option (List Nat),
      Decidable (∀ sig, o = some sig → sig.length < 18446744073709551616) := by
    intro o
    cases o with
    | none => exact isTrue (by intro sig h; cases h)
    | some x =>
        by_cases hx : x.length < 18446744073709551616
        · exact isTrue (by intro sig h; cases h; exact hx)
        · exact isFalse (by intro h; exact hx (h x rfl))
  infer_instance

/-- Reading back a length-prefixed `Vec<u8>` that ends the input. -/
theorem readVecU8_writeVecU8_nil (v : List Nat)
    (h : v.length < 18446744073709551616) :
    readVecU8 (writeVecU8 v) = some (v, []) := by
  have hr := readVecU8_writeVecU8 v [] h
  simpa using hr

/-- Bincode round-trip on the raw field block. -/
theorem decodeBlobFields_encode (b : TransitionBlobV1) (hwf : blobWF b) :
    decodeBlobFields b.encode = some b := by
  obtain ⟨hv, h1, h2, h3, h4, h5, h6, h7, h8, h9, h10⟩ := hwf
  have hv' : b.version % 256 = b.version := Nat.mod_eq_of_lt hv
  unfold TransitionBlobV1.encode decodeBlobFields
  cases hts : b.timestamp with
  | none =>
      cases hsig : b.sequencer_signature with
      | none =>
          simp [List.append_assoc, List.singleton_append, readByte,
            readVecU8_writeVecU8, readU64_leBytes8, readBytes_exact,
            h1, h2, h3, h4, h5, h6, h7, h8, hv', hts, hsig]
          rw [← hts, ← hsig]
      | some sig =>
          have hsl := h10 sig hsig
          simp [List.append_assoc, List.singleton_append, readByte,
            readVecU8_writeVecU8, readVecU8_writeVecU8_nil, readU64_leBytes8,
            readBytes_exact, h1, h2, h3, h4, h5, h6, h7, h8, hsl, hv', hts, hsig]
          rw [← hts, ← hsig]
  | some ts =>
      have hts' := h9 ts hts
      cases hsig : b.sequencer_signature with
      | none =>
          simp [List.append_assoc, List.singleton_append, readByte,
            readVecU8_writeVecU8, readU64_leBytes8, readBytes_exact,
            h1, h2, h3, h4, h5, h6, h7, h8, hts', hv', hts, hsig]
          rw [← hts, ← hsig]
      | some sig =>
          have hsl := h10 sig hsig
          simp [List.append_assoc, List.singleton_append, readByte,
            readVecU8_writeVecU8, readVecU8_writeVecU8_nil, readU64_leBytes8,
            readBytes_exact, h1, h2, h3, h4, h5, h6, h7, h8, hts', hsl, hv', hts, hsig]
          rw [← hts, ← hsig]

/-- C6: `decode(encode(blob))` round-trips for every well-formed blob with
version 1, and for any other version the decode fails with
`InvalidVersion{expected = 1, got = v}`. -/
theorem C6_blob_roundtrip_and_version_check (b : TransitionBlobV1) (hwf : blobWF b) :
    (b.version = 1 → TransitionBlobV1.decode b.encode = Except.ok b) ∧
    (b.version ≠ 1 → TransitionBlobV1.decode b.encode =
      Except.error (BlobError.InvalidVersion 1 b.version)) := by
  have hd := decodeBlobFields_encode b hwf
  constructor
  · intro hone
    simp [TransitionBlobV1.decode, hd, SCHEMA_VERSION, hone]
  · intro hone
    simp [TransitionBlobV1.decode, hd, SCHEMA_VERSION, hone]

/-- A concrete version-1 blob for the C6 witness. -/
def blobExampleV1 : TransitionBlobV1 :=
  { version := 1, app_id := [116, 101, 115, 116], sequence := 1,
    prev_root := List.replicate 32 0, new_root := List.replicate 32 1,
    public_inputs := [112], public_outputs := [111], proof := [112, 114],
    program_hash := List.replicate 32 2, timestamp := some 12345,
    sequencer_signature := none }

/-- The same blob re-tagged with version 2 for the C6 witness. -/
def blobExampleV2 : TransitionBlobV1 := { blobExampleV1 with version := 2 }

/-- C6 witness: the concrete version-1 blob round-trips and its version-2
variant is rejected with `InvalidVersion{expected = 1, got = 2}`. -/
theorem C6_blob_roundtrip_and_version_check_witness :
    blobWF blobExampleV1 ∧ blobExampleV1.version = 1 ∧
    TransitionBlobV1.decode blobExampleV1.encode = Except.ok blobExampleV1 ∧
    blobWF blobExampleV2 ∧ blobExampleV2.version ≠ 1 ∧
    TransitionBlobV1.decode blobExampleV2.encode =
      Except.error (BlobError.InvalidVersion 1 blobExampleV2.version) :=
  ⟨by decide, by decide,
    (C6_blob_roundtrip_and_version_check blobExampleV1 (by decide)).1 (by decide),
    by decide, by decide,
    (C6_blob_roundtrip_and_version_check blobExampleV2 (by decide)).2 (by decide)⟩

/-- If an indexed root sequence witnesses each step, the guest witness loop
succeeds and ends at the last root. -/
theorem guestWitnessLoop_of_chain (ws : List UpdateWitness) (cur : Hash32)
    (roots : List Hash32)
    (hlen : roots.length = ws.length + 1)
    (hhead : roots.getD 0 [] = cur)
    (hchain : ∀ i, i < ws.length →
      GuestComputeRoot (ws.getD i default).key (ws.getD i default).old_value
          (ws.getD i default).siblings = roots.getD i [] ∧
        roots.getD (i + 1) [] =
          GuestComputeRoot (ws.getD i default).key (ws.getD i default).new_value
            (ws.getD i default).siblings) :
    guestWitnessLoop cur ws = some (roots.getD ws.length []) := by
  induction ws generalizing cur roots with
  | nil => simp [guestWitnessLoop, ← hhead]
  | cons w rest ih =>
      obtain ⟨r0, roots', hr⟩ : ∃ r0 roots', roots = r0 :: roots' := by
        cases roots with
        | nil => simp at hlen
        | cons a l => exact ⟨a, l, rfl⟩
      subst hr
      have h0 := hchain 0 (by simp)
      simp only [List.getD_cons_zero, List.getD_cons_succ] at h0 hhead
      have hcond : GuestComputeRoot w.key w.old_value w.siblings = cur := by
        rw [← hhead]
        simpa using h0.1
      have hrec := ih (GuestComputeRoot w.key w.new_value w.siblings) roots'
        (by simpa using hlen)
        (by simpa using h0.2)
        (by
          intro i hi
          have := hchain (i + 1) (by simpa using Nat.succ_lt_succ hi)
          simpa using this)
      simp only [guestWitnessLoop, hcond, if_pos]
      simpa using hrec

/-- If the root sequence certifies a prefix and the witness at its end
recomputes a stale old root, the guest witness loop aborts. -/
theorem guestWitnessLoop_break (j : Nat) : ∀ (ws : List UpdateWitness) (cur : Hash32)
    (roots : List Hash32), j < ws.length → roots.length = j + 1 →
    roots.getD 0 [] = cur →
    (∀ i, i < j →
      GuestComputeRoot (ws.getD i default).key (ws.getD i default).old_value
          (ws.getD i default).siblings = roots.getD i [] ∧
        roots.getD (i + 1) [] =
          GuestComputeRoot (ws.getD i default).key (ws.getD i default).new_value
            (ws.getD i default).siblings) →
    GuestComputeRoot (ws.getD j default).key (ws.getD j default).old_value
        (ws.getD j default).siblings ≠ roots.getD j [] →
    guestWitnessLoop cur ws = none := by
  induction j with
  | zero =>
      intro ws cur roots hj hlen hhead _ hbreak
      obtain ⟨w, rest, hw⟩ : ∃ w rest, ws = w :: rest := by
        cases ws with
        | nil => simp at hj
        | cons a l => exact ⟨a, l, rfl⟩
      subst hw
      simp only [List.getD_cons_zero] at hbreak
      have hcond : GuestComputeRoot w.key w.old_value w.siblings ≠ cur := by
        rw [← hhead]
        simpa using hbreak
      simp [guestWitnessLoop, hcond]
  | succ j ih =>
      intro ws cur roots hj hlen hhead hchain hbreak
      obtain ⟨w, rest, hw⟩ : ∃ w rest, ws = w :: rest := by
        cases ws with
        | nil => simp at hj
        | cons a l => exact ⟨a, l, rfl⟩
      subst hw
      obtain ⟨r0, roots', hr⟩ : ∃ r0 roots', roots = r0 :: roots' := by
        cases roots with
        | nil => simp at hlen
        | cons a l => exact ⟨a, l, rfl⟩
      subst hr
      have h0 := hchain 0 (by simp)
      simp only [List.getD_cons_zero, List.getD_cons_succ] at h0 hhead
      have hcond : GuestComputeRoot w.key w.old_value w.siblings = cur := by
        rw [← hhead]
        simpa using h0.1
      have hrec := ih rest (GuestComputeRoot w.key w.new_value w.siblings) roots'
        (by simpa using hj)
        (by simpa using hlen)
        (by simpa using h0.2)
        (by
          intro i hi
          have := hchain (i + 1) (by simpa using Nat.succ_lt_succ hi)
          simpa using this)
        (by simpa using hbreak)
      simp only [guestWitnessLoop, hcond, if_pos]
      simpa using hrec

/-- C2: on an input whose operations all pass their business-logic checks,
the guest folds the witness list in order from `prev_root`: when an indexed
root sequence certifies every step (each witness's recomputed old root is
the running root and its recomputed new root is the next), the guest
commits exactly `TransitionOutput{prev_root, new_root = final running root,
public_inputs_hash = SHA-256(prev_root ‖ public_inputs), public_outputs = []}`;
and when some witness's recomputed old root differs from the running root
reached through a certified prefix, the guest aborts with no output. -/
theorem C2_guest_folds_witness_chain (input : TransitionInput) (roots : List Hash32)
    (hops : ∀ op ∈ input.operations, verify_operation op input.witnesses = true) :
    ((roots.length = input.witnesses.length + 1 ∧
      roots.getD 0 [] = input.prev_root ∧
      (∀ i, i < input.witnesses.length →
        GuestComputeRoot (input.witnesses.getD i default).key
            (input.witnesses.getD i default).old_value
            (input.witnesses.getD i default).siblings = roots.getD i [] ∧
          roots.getD (i + 1) [] =
            GuestComputeRoot (input.witnesses.getD i default).key
              (input.witnesses.getD i default).new_value
              (input.witnesses.getD i default).siblings)) →
      guestMain input = some
        { prev_root := input.prev_root,
          new_root := roots.getD input.witnesses.length [],
          public_inputs_hash := sha256 (input.prev_root ++ input.public_inputs),
          public_outputs := [] }) ∧
    (∀ j, j < input.witnesses.length → roots.length = j + 1 →
      roots.getD 0 [] = input.prev_root →
      (∀ i, i < j →
        GuestComputeRoot (input.witnesses.getD i default).key
            (input.witnesses.getD i default).old_value
            (input.witnesses.getD i default).siblings = roots.getD i [] ∧
          roots.getD (i + 1) [] =
            GuestComputeRoot (input.witnesses.getD i default).key
              (input.witnesses.getD i default).new_value
              (input.witnesses.getD i default).siblings) →
      GuestComputeRoot (input.witnesses.getD j default).key
          (input.witnesses.getD j default).old_value
          (input.witnesses.getD j default).siblings ≠ roots.getD j [] →
      guestMain input = none) := by
  have hall : input.operations.all
      (fun op => verify_operation op input.witnesses) = true :=
    List.all_eq_true.mpr hops
  constructor
  · rintro ⟨hlen, hhead, hchain⟩
    have hloop := guestWitnessLoop_of_chain input.witnesses input.prev_root roots
      hlen hhead hchain
    simp [guestMain, hall, hloop, hash_public_inputs]
  · intro j hj hlen hhead hchain hbreak
    have hloop := guestWitnessLoop_break j input.witnesses input.prev_root roots
      hj hlen hhead hchain hbreak
    simp [guestMain, hall, hloop]

/-- A trivially consistent guest input: no witnesses, no operations. -/
def c2InputOk : TransitionInput :=
  { prev_root := [3], public_inputs := [5], private_inputs := [],
    witnesses := [], operations := [] }

/-- A guest input whose single witness recomputes `EMPTY_HASH` as its old
root while the input's previous root is `[1]`. -/
def c2InputBreak : TransitionInput :=
  { prev_root := [1], public_inputs := [], private_inputs := [],
    witnesses := [⟨[], none, none, []⟩], operations := [] }

/-- C2 witness: the commit conclusion at the consistent input and the abort
conclusion at the broken input. -/
theorem C2_guest_folds_witness_chain_witness :
    guestMain c2InputOk = some
      { prev_root := c2InputOk.prev_root,
        new_root := ([[3]] : List Hash32).getD c2InputOk.witnesses.length [],
        public_inputs_hash := sha256 (c2InputOk.prev_root ++ c2InputOk.public_inputs),
        public_outputs := [] } ∧
    guestMain c2InputBreak = none := by
  constructor
  · exact (C2_guest_folds_witness_chain c2InputOk [[3]] (by simp [c2InputOk])).1
      ⟨by decide, by decide, by intro i hi; simp [c2InputOk] at hi⟩
  · exact (C2_guest_folds_witness_chain c2InputBreak [[1]] (by simp [c2InputBreak])).2
      0 (by decide) (by decide) (by decide)
      (by intro i hi; simp at hi) (by decide)

/-- The root-continuity run of the verifier loop: each entry's `prev_root`
matches the running root, which then advances to its `new_root`. -/
def chainedFrom (cur : Hash32) : List (Nat × TransitionBlobV1) → Bool
  | [] => true
  | e :: rest => (e.2.prev_root == cur) && chainedFrom e.2.new_root rest

/-- `getD` through a cons on `getLast?`. -/
theorem getLastD_cons {α : Type} (a : α) (l : List α) (d : α) :
    (a :: l).getLast?.getD d = l.getLast?.getD a := by
  cases l with
  | nil => rfl
  | cons b l' =>
      rw [List.getLast?_cons_cons]
      cases h : (b :: l').getLast? with
      | none => simp at h
      | some x => rfl

/-- Success run of the `verify_range` loop: matching program hashes, an
unbroken root chain and verifying proofs yield a final state whose running
root is the last `new_root`. -/
theorem verifyLoop_ok (ph : Hash32) (skip : Bool)
    (vp : List Nat → Except String TransitionOutput) :
    ∀ (l : List (Nat × TransitionBlobV1)) (st : VerifyLoopState),
    (∀ e ∈ l, e.2.program_hash = ph) →
    chainedFrom st.current_root l = true →
    (∀ e ∈ l, skip = false → e.2.proof ≠ [] →
      ∃ out, vp e.2.proof = Except.ok out ∧ out.prev_root = e.2.prev_root ∧
        out.new_root = e.2.new_root) →
    ∃ st', verifyLoop ph skip vp st l = Except.ok st' ∧
      st'.current_root = (l.map (fun e => e.2.new_root)).getLast?.getD st.current_root := by
  intro l
  induction l with
  | nil =>
      intro st _ _ _
      exact ⟨st, rfl, rfl⟩
  | cons e rest ih =>
      intro st hph hchain hproof
      have hphe : e.2.program_hash = ph := hph e (by simp)
      have hchain' : (e.2.prev_root == st.current_root) = true ∧
          chainedFrom e.2.new_root rest = true := by
        simpa [chainedFrom, Bool.and_eq_true] using hchain
      have hprev : e.2.prev_root = st.current_root := by
        exact eq_of_beq hchain'.1
      have hstep : ∀ unv, ∃ st', verifyLoop ph skip vp
          (VerifyLoopState.mk e.2.new_root e.2.sequence e.1 unv) rest = Except.ok st' ∧
          st'.current_root = (rest.map (fun x => x.2.new_root)).getLast?.getD e.2.new_root := by
        intro unv
        exact ih (VerifyLoopState.mk e.2.new_root e.2.sequence e.1 unv)
          (fun x hx => hph x (by simp [hx]))
          (by simpa using hchain'.2)
          (fun x hx => hproof x (by simp [hx]))
      have hgoal : ∃ st', verifyLoop ph skip vp st (e :: rest) = Except.ok st' ∧
          st'.current_root = (rest.map (fun x => x.2.new_root)).getLast?.getD e.2.new_root := by
        by_cases hskip : skip = false
        · by_cases hpf : e.2.proof = []
          · obtain ⟨st', h1, h2⟩ := hstep (st.unverified ++ [e.2.sequence])
            refine ⟨st', ?_, h2⟩
            simp [verifyLoop, hphe, hprev, hskip, hpf]
            exact hskip ▸ h1
          · obtain ⟨out, hout, ho1, ho2⟩ := hproof e (by simp) hskip hpf
            obtain ⟨st', h1, h2⟩ := hstep st.unverified
            refine ⟨st', ?_, h2⟩
            simp [verifyLoop, hphe, hprev, hskip, hpf, hout, ho1, ho2]
            exact hskip ▸ h1
        · have hskip' : skip = true := by
            cases skip
            · exact absurd rfl hskip
            · rfl
          by_cases hpf : e.2.proof = []
          · obtain ⟨st', h1, h2⟩ := hstep (st.unverified ++ [e.2.sequence])
            refine ⟨st', ?_, h2⟩
            simp [verifyLoop, hphe, hprev, hskip', hpf]
            exact hskip' ▸ h1
          · obtain ⟨st', h1, h2⟩ := hstep st.unverified
            refine ⟨st', ?_, h2⟩
            simp [verifyLoop, hphe, hprev, hskip', hpf]
            exact hskip' ▸ h1
      obtain ⟨st', h1, h2⟩ := hgoal
      refine ⟨st', h1, ?_⟩
      rw [h2, List.map_cons, getLastD_cons]

/-- Failure run of the `verify_range` loop: when the entry after a clean
prefix carries a stale `prev_root`, the loop raises `RootChainBroken` with
the running root as `expected` and the stale root as `actual`. -/
theorem verifyLoop_break (ph : Hash32) (skip : Bool)
    (vp : List Nat → Except String TransitionOutput) :
    ∀ (pre : List (Nat × TransitionBlobV1)) (t : Nat × TransitionBlobV1)
      (post : List (Nat × TransitionBlobV1)) (st : VerifyLoopState),
    (∀ e ∈ pre, e.2.program_hash = ph) →
    chainedFrom st.current_root pre = true →
    (∀ e ∈ pre, skip = false → e.2.proof ≠ [] →
      ∃ out, vp e.2.proof = Except.ok out ∧ out.prev_root = e.2.prev_root ∧
        out.new_root = e.2.new_root) →
    t.2.program_hash = ph →
    t.2.prev_root ≠ (pre.map (fun e => e.2.new_root)).getLast?.getD st.current_root →
    verifyLoop ph skip vp st (pre ++ t :: post) =
      Except.error (VerifyError.RootChainBroken t.2.sequence
        (hexEncode ((pre.map (fun e => e.2.new_root)).getLast?.getD st.current_root))
        (hexEncode t.2.prev_root)) := by
  intro pre
  induction pre with
  | nil =>
      intro t post st _ _ _ hpht hbreak
      simp only [List.map_nil, List.getLast?_nil, Option.getD_none] at hbreak
      simp [verifyLoop, hpht, hbreak]
  | cons e rest ih =>
      intro t post st hph hchain hproof hpht hbreak
      have hphe : e.2.program_hash = ph := hph e (by simp)
      have hchain' : (e.2.prev_root == st.current_root) = true ∧
          chainedFrom e.2.new_root rest = true := by
        simpa [chainedFrom, Bool.and_eq_true] using hchain
      have hprev : e.2.prev_root = st.current_root := eq_of_beq hchain'.1
      have hbreak' : t.2.prev_root ≠
          (rest.map (fun x => x.2.new_root)).getLast?.getD e.2.new_root := by
        rw [List.map_cons, getLastD_cons] at hbreak
        exact hbreak
      have hcont : ∀ unv, verifyLoop ph skip vp
          (VerifyLoopState.mk e.2.new_root e.2.sequence e.1 unv) (rest ++ t :: post) =
          Except.error (VerifyError.RootChainBroken t.2.sequence
            (hexEncode ((rest.map (fun x => x.2.new_root)).getLast?.getD e.2.new_root))
            (hexEncode t.2.prev_root)) := by
        intro unv
        exact ih t post (VerifyLoopState.mk e.2.new_root e.2.sequence e.1 unv)
          (fun x hx => hph x (by simp [hx]))
          (by simpa using hchain'.2)
          (fun x hx => hproof x (by simp [hx]))
          hpht hbreak'
      have hres : verifyLoop ph skip vp st ((e :: rest) ++ t :: post) =
          Except.error (VerifyError.RootChainBroken t.2.sequence
            (hexEncode ((rest.map (fun x => x.2.new_root)).getLast?.getD e.2.new_root))
            (hexEncode t.2.prev_root)) := by
        set E := Except.error (VerifyError.RootChainBroken t.2.sequence
            (hexEncode ((rest.map (fun x => x.2.new_root)).getLast?.getD e.2.new_root))
            (hexEncode t.2.prev_root)) with hE
        by_cases hskip : skip = false
        · by_cases hpf : e.2.proof = []
          · simp [verifyLoop, hphe, hprev, hskip, hpf]
            exact hskip ▸ hcont (st.unverified ++ [e.2.sequence])
          · obtain ⟨out, hout, ho1, ho2⟩ := hproof e (by simp) hskip hpf
            simp [verifyLoop, hphe, hprev, hskip, hpf, hout, ho1, ho2]
            exact hskip ▸ hcont st.unverified
        · have hskip' : skip = true := by
            cases skip
            · exact absurd rfl hskip
            · rfl
          by_cases hpf : e.2.proof = []
          · simp [verifyLoop, hphe, hprev, hskip', hpf]
            exact hskip' ▸ hcont (st.unverified ++ [e.2.sequence])
          · simp [verifyLoop, hphe, hprev, hskip', hpf]
            exact hskip' ▸ hcont st.unverified
      rw [hres, List.map_cons, getLastD_cons]

/-- C3: over decodable fetched blobs whose sorted transitions chain from
the initial root (the configured expected first root, else the first
entry's `prev_root`) with matching program hashes and verifying proofs,
`verify_range` succeeds with `latest_root` the last transition's `new_root`
and `first_root` the initial root; and when the entry after a clean sorted
prefix carries a `prev_root` different from the running root,
`verify_range` fails with `RootChainBroken{sequence, expected = running
root, actual = that prev_root}`. -/
theorem C3_verify_range_soundness (defaultPH : Hash32)
    (vp : List Nat → Except String TransitionOutput) (config : VerifyConfig)
    (blobs : List (Nat × List Nat)) (decoded : List (Nat × TransitionBlobV1))
    (first : Nat × TransitionBlobV1) (rest : List (Nat × TransitionBlobV1))
    (hne : blobs ≠ [])
    (hdec : decodeAllBlobs blobs = Except.ok decoded)
    (hsort : sortBySeq decoded = first :: rest)
    (hph : ∀ e ∈ first :: rest,
      e.2.program_hash = config.expected_program_hash.getD defaultPH) :
    ((chainedFrom (config.expected_first_root.getD first.2.prev_root)
        (first :: rest) = true →
      (∀ e ∈ first :: rest, config.skip_proof_verification = false →
        e.2.proof ≠ [] → ∃ out, vp e.2.proof = Except.ok out ∧
          out.prev_root = e.2.prev_root ∧ out.new_root = e.2.new_root) →
      ∃ r, verify_range defaultPH vp config blobs = Except.ok r ∧
        r.latest_root = (List.getLast (first :: rest) (by simp)).2.new_root ∧
        r.first_root = config.expected_first_root.getD first.2.prev_root)) ∧
    (∀ pre t post, first :: rest = pre ++ t :: post →
      chainedFrom (config.expected_first_root.getD first.2.prev_root) pre = true →
      (∀ e ∈ pre, config.skip_proof_verification = false → e.2.proof ≠ [] →
        ∃ out, vp e.2.proof = Except.ok out ∧ out.prev_root = e.2.prev_root ∧
          out.new_root = e.2.new_root) →
      t.2.prev_root ≠ (pre.map (fun e => e.2.new_root)).getLast?.getD
        (config.expected_first_root.getD first.2.prev_root) →
      verify_range defaultPH vp config blobs =
        Except.error (VerifyError.RootChainBroken t.2.sequence
          (hexEncode ((pre.map (fun e => e.2.new_root)).getLast?.getD
            (config.expected_first_root.getD first.2.prev_root)))
          (hexEncode t.2.prev_root))) := by
  obtain ⟨b0, bs, hb⟩ : ∃ b0 bs, blobs = b0 :: bs := by
    cases blobs with
    | nil => exact absurd rfl hne
    | cons b0 bs => exact ⟨b0, bs, rfl⟩
  subst hb
  have hrange : verify_range defaultPH vp config (b0 :: bs) =
      (match verifyLoop (config.expected_program_hash.getD defaultPH)
          config.skip_proof_verification vp
          (VerifyLoopState.mk (config.expected_first_root.getD first.2.prev_root)
            first.2.sequence first.1 [])
          (first :: rest) with
       | Except.error e => Except.error e
       | Except.ok st => Except.ok
          { total_transitions := (first :: rest).length,
            first_root := config.expected_first_root.getD first.2.prev_root,
            latest_root := st.current_root,
            first_sequence := first.2.sequence,
            last_sequence := st.last_sequence,
            height_range := (first.1, st.last_height),
            unverified_transitions := st.unverified }) := by
    simp [verify_range, hdec, hsort]
  constructor
  · intro hchain hproof
    obtain ⟨st', h1, h2⟩ := verifyLoop_ok (config.expected_program_hash.getD defaultPH)
      config.skip_proof_verification vp (first :: rest)
      (VerifyLoopState.mk (config.expected_first_root.getD first.2.prev_root)
        first.2.sequence first.1 [])
      hph (by simpa using hchain) hproof
    refine ⟨_, by rw [hrange, h1], ?_, rfl⟩
    have hlast : ((first :: rest).map (fun e => e.2.new_root)).getLast?.getD
        (config.expected_first_root.getD first.2.prev_root) =
        (List.getLast (first :: rest) (by simp)).2.new_root := by
      rw [List.getLast?_map]
      rw [List.getLast?_eq_getLast (first :: rest) (by simp)]
      rfl
    rw [hlast] at h2
    exact h2
  · intro pre t post hsplit hchainpre hproofpre hbreak
    have hloop := verifyLoop_break (config.expected_program_hash.getD defaultPH)
      config.skip_proof_verification vp pre t post
      (VerifyLoopState.mk (config.expected_first_root.getD first.2.prev_root)
        first.2.sequence first.1 [])
      (fun e he => hph e (by rw [hsplit]; exact List.mem_append.mpr (Or.inl he)))
      (by simpa using hchainpre)
      hproofpre
      (hph t (by rw [hsplit]; exact List.mem_append.mpr (Or.inr (by simp))))
      (by simpa using hbreak)
    rw [hrange, hsplit, hloop]

/-- All-zero 32-byte root used by the verifier examples. -/
def zeros32 : Hash32 := List.replicate 32 0

/-- All-seven 32-byte root used by the verifier examples. -/
def sevens32 : Hash32 := List.replicate 32 7

/-- All-nine 32-byte root used by the verifier examples. -/
def nines32 : Hash32 := List.replicate 32 9

/-- A proof-less transition blob for the verifier examples. -/
def plainBlob (seq : Nat) (pr nr : Hash32) : TransitionBlobV1 :=
  { version := 1, app_id := [], sequence := seq, prev_root := pr, new_root := nr,
    public_inputs := [], public_outputs := [], proof := [],
    program_hash := zeros32, timestamp := none, sequencer_signature := none }

/-- The verifier configuration of the examples: expected program hash
pinned to zero, proof verification on, no expected first root. -/
def c3Cfg : VerifyConfig := ⟨some zeros32, false, none⟩

/-- A proof verifier that is never consulted (all example proofs are empty). -/
def c3vp : List Nat → Except String TransitionOutput := fun _ => Except.error "unused"

/-- C3 witness: a chained two-blob fetch verifies with the last `new_root`,
and flattening the second blob's `prev_root` back to zero breaks the chain
with `RootChainBroken`. -/
theorem C3_verify_range_soundness_witness :
    (∃ r, verify_range zeros32 c3vp c3Cfg
        [(10, (plainBlob 1 zeros32 sevens32).encode),
         (11, (plainBlob 2 sevens32 nines32).encode)] = Except.ok r ∧
      r.latest_root = (List.getLast
        [((10 : Nat), plainBlob 1 zeros32 sevens32),
         ((11 : Nat), plainBlob 2 sevens32 nines32)] (by simp)).2.new_root ∧
      r.first_root = c3Cfg.expected_first_root.getD (plainBlob 1 zeros32 sevens32).prev_root) ∧
    verify_range zeros32 c3vp c3Cfg
        [(10, (plainBlob 1 zeros32 sevens32).encode),
         (11, (plainBlob 2 zeros32 nines32).encode)] =
      Except.error (VerifyError.RootChainBroken (plainBlob 2 zeros32 nines32).sequence
        (hexEncode (([((10 : Nat), plainBlob 1 zeros32 sevens32)].map
            (fun e => e.2.new_root)).getLast?.getD
          (c3Cfg.expected_first_root.getD (plainBlob 1 zeros32 sevens32).prev_root)))
        (hexEncode (plainBlob 2 zeros32 nines32).prev_root)) := by
  constructor
  · exact (C3_verify_range_soundness zeros32 c3vp c3Cfg
        [(10, (plainBlob 1 zeros32 sevens32).encode),
         (11, (plainBlob 2 sevens32 nines32).encode)]
        [(10, plainBlob 1 zeros32 sevens32), (11, plainBlob 2 sevens32 nines32)]
        (10, plainBlob 1 zeros32 sevens32) [(11, plainBlob 2 sevens32 nines32)]
        (by decide) (by decide) (by decide)
        (by intro e he; fin_cases he <;> decide)).1
      (by decide)
      (by intro e he hsk hpr; fin_cases he <;> exact absurd (by decide) hpr)
  · exact (C3_verify_range_soundness zeros32 c3vp c3Cfg
        [(10, (plainBlob 1 zeros32 sevens32).encode),
         (11, (plainBlob 2 zeros32 nines32).encode)]
        [(10, plainBlob 1 zeros32 sevens32), (11, plainBlob 2 zeros32 nines32)]
        (10, plainBlob 1 zeros32 sevens32) [(11, plainBlob 2 zeros32 nines32)]
        (by decide) (by decide) (by decide)
        (by intro e he; fin_cases he <;> decide)).2
      [(10, plainBlob 1 zeros32 sevens32)] (11, plainBlob 2 zeros32 nines32) []
      (by decide)
      (by decide)
      (by intro e he hsk hpr; fin_cases he; exact absurd (by decide) hpr)
      (by decide)

/-- C7 counterexample: two distinct fetched entries (heights 10 and 11)
decode to the same sequence number 5, and `verify_range` returns a
`VerificationResult` rather than failing. -/
theorem C7_duplicate_sequence_counterexample :
    decodeAllBlobs [(10, (plainBlob 5 zeros32 zeros32).encode),
        (11, (plainBlob 5 zeros32 zeros32).encode)] =
      Except.ok [(10, plainBlob 5 zeros32 zeros32), (11, plainBlob 5 zeros32 zeros32)] ∧
    ((10 : Nat), plainBlob 5 zeros32 zeros32) ≠ ((11 : Nat), plainBlob 5 zeros32 zeros32) ∧
    (plainBlob 5 zeros32 zeros32).sequence = 5 ∧
    (verify_range zeros32 c3vp c3Cfg
      [(10, (plainBlob 5 zeros32 zeros32).encode),
       (11, (plainBlob 5 zeros32 zeros32).encode)]).isOk = true := by
  refine ⟨by decide, by decide, by decide, by decide⟩

/-- C7 amended: `verify_range` performs no duplicate-sequence check.  Two
decoded entries carrying the same sequence number are processed like any
adjacent entries after the stable sort; in particular, posting the same
proof-less blob at two heights — when its roots chain (`prev_root =
new_root`) and its program hash matches — yields a normal
`VerificationResult` over both copies. -/
theorem C7_duplicate_sequence_not_fatal (defaultPH : Hash32)
    (vp : List Nat → Except String TransitionOutput) (ph : Hash32) (skip : Bool)
    (h1 h2 : Nat) (b : TransitionBlobV1)
    (hwf : blobWF b) (hv1 : b.version = 1) (hroot : b.prev_root = b.new_root)
    (hbph : b.program_hash = ph) (hpf : b.proof = []) :
    ∃ r, verify_range defaultPH vp ⟨some ph, skip, none⟩
        [(h1, b.encode), (h2, b.encode)] = Except.ok r ∧
      r.total_transitions = 2 ∧ r.latest_root = b.new_root ∧
      r.first_root = b.prev_root := by
  have hdecb : TransitionBlobV1.decode b.encode = Except.ok b := by
    have hd := decodeBlobFields_encode b hwf
    simp [TransitionBlobV1.decode, hd, SCHEMA_VERSION, hv1]
  have hdec : decodeAllBlobs [(h1, b.encode), (h2, b.encode)] =
      Except.ok [(h1, b), (h2, b)] := by
    simp [decodeAllBlobs, hdecb]
  have hsort : sortBySeq [(h1, b), (h2, b)] = [(h1, b), (h2, b)] := by
    simp [sortBySeq, insertBySeq]
  have hrange : verify_range defaultPH vp ⟨some ph, skip, none⟩
      [(h1, b.encode), (h2, b.encode)] =
      (match verifyLoop ph skip vp
          (VerifyLoopState.mk b.prev_root b.sequence h1 [])
          [(h1, b), (h2, b)] with
       | Except.error e => Except.error e
       | Except.ok st => Except.ok
          { total_transitions := ([(h1, b), (h2, b)] : List (Nat × TransitionBlobV1)).length,
            first_root := b.prev_root,
            latest_root := st.current_root,
            first_sequence := b.sequence,
            last_sequence := st.last_sequence,
            height_range := (h1, st.last_height),
            unverified_transitions := st.unverified }) := by
    simp [verify_range, hdec, hsort]
  obtain ⟨st', hst1, hst2⟩ := verifyLoop_ok ph skip vp [(h1, b), (h2, b)]
    (VerifyLoopState.mk b.prev_root b.sequence h1 [])
    (by intro e he; rcases List.mem_cons.mp he with h | h
        · subst h; exact hbph
        · rcases List.mem_cons.mp h with h' | h'
          · subst h'; exact hbph
          · cases h')
    (by simp [chainedFrom, hroot])
    (by intro e he hsk hpr
        apply absurd ?_ hpr
        rcases List.mem_cons.mp he with h | h
        · subst h; exact hpf
        · rcases List.mem_cons.mp h with h' | h'
          · subst h'; exact hpf
          · cases h')
  refine ⟨_, by rw [hrange, hst1], rfl, ?_, rfl⟩
  simpa using hst2

/-- C7 witness: the amended statement at the concrete duplicated blob of
sequence 5. -/
theorem C7_duplicate_sequence_not_fatal_witness :
    blobWF (plainBlob 5 zeros32 zeros32) ∧
    (plainBlob 5 zeros32 zeros32).version = 1 ∧
    (plainBlob 5 zeros32 zeros32).prev_root = (plainBlob 5 zeros32 zeros32).new_root ∧
    (plainBlob 5 zeros32 zeros32).program_hash = zeros32 ∧
    (plainBlob 5 zeros32 zeros32).proof = [] ∧
    ∃ r, verify_range zeros32 c3vp ⟨some zeros32, false, none⟩
        [(10, (plainBlob 5 zeros32 zeros32).encode),
         (11, (plainBlob 5 zeros32 zeros32).encode)] = Except.ok r ∧
      r.total_transitions = 2 ∧ r.latest_root = (plainBlob 5 zeros32 zeros32).new_root ∧
      r.first_root = (plainBlob 5 zeros32 zeros32).prev_root :=
  ⟨by decide, by decide, by decide, by decide, by decide,
    C7_duplicate_sequence_not_fatal zeros32 c3vp zeros32 false 10 11
      (plainBlob 5 zeros32 zeros32) (by decide) (by decide) (by decide)
      (by decide) (by decide)⟩

/-! ### Sparse-tree correctness: the sibling fold recomputes subtree roots -/

/-- A path has exactly `TREE_DEPTH` bits. -/
theorem pathOf_length (k : Hash32) : (pathOf k).length = TREE_DEPTH := by
  simp [pathOf]

/-- Indexing a path gives the corresponding key bit. -/
theorem pathOf_getD (k : Hash32) (d : Nat) (hd : d < TREE_DEPTH) :
    (pathOf k).getD d false = get_bit k d := by
  simp [pathOf, List.getD_eq_getElem?_getD, List.getElem?_map, List.getElem?_range hd]

/-- Every entry of a leaf list carries a full-depth path. -/
theorem entriesOf_length (l : List (Hash32 × List Nat)) :
    ∀ e ∈ entriesOf l, e.1.length = TREE_DEPTH := by
  intro e he
  simp only [entriesOf, List.mem_map] at he
  obtain ⟨x, _, hx⟩ := he
  rw [← hx]
  exact pathOf_length x.1

/-- The empty-subtree hash at full depth is the zero hash. -/
theorem emptyHashes_depth : emptyHashes TREE_DEPTH = EMPTY_HASH := by
  simp [emptyHashes, emptyHashAux]

/-- The empty-subtree recurrence: one level up hashes the pair below. -/
theorem emptyHashes_succ (d : Nat) (hd : d < TREE_DEPTH) :
    emptyHashes d = hash_nodes (emptyHashes (d + 1)) (emptyHashes (d + 1)) := by
  have h : TREE_DEPTH - d = (TREE_DEPTH - (d + 1)) + 1 := by omega
  rw [emptyHashes, h]
  rfl

/-- The subtree hash of no leaves is the empty-subtree hash. -/
theorem computeSubtreeFromLeaves_nil (fuel d : Nat) :
    computeSubtreeFromLeaves fuel d [] = emptyHashes d := by
  by_cases hd : d = TREE_DEPTH
  · subst hd
    rw [emptyHashes_depth]
    cases fuel with
    | zero => rfl
    | succ n => rfl
  · cases fuel with
    | zero => simp [computeSubtreeFromLeaves, hd]
    | succ n => simp [computeSubtreeFromLeaves, hd]

/-- Agreement on `d + 1` bits is agreement on `d` bits plus the bit at `d`,
for paths long enough. -/
theorem take_succ_agree {l m : List Bool} {d : Nat} (hl : d < l.length)
    (hm : d < m.length) :
    l.take (d + 1) = m.take (d + 1) ↔
      (l.take d = m.take d ∧ l.getD d false = m.getD d false) := by
  have hls : l.take (d + 1) = l.take d ++ [l.getD d false] := by
    rw [List.take_succ]
    congr 1
    rw [List.getD_eq_getElem?_getD, List.getElem?_eq_getElem hl]
    rfl
  have hms : m.take (d + 1) = m.take d ++ [m.getD d false] := by
    rw [List.take_succ]
    congr 1
    rw [List.getD_eq_getElem?_getD, List.getElem?_eq_getElem hm]
    rfl
  rw [hls, hms]
  constructor
  · intro h
    have hlen : (l.take d).length = (m.take d).length := by
      simp [List.length_take]
      omega
    obtain ⟨h1, h2⟩ := List.append_inj h hlen
    exact ⟨h1, by simpa using h2⟩
  · rintro ⟨h1, h2⟩
    rw [h1, h2]

/-- Entries restricted to those agreeing with `pi` on the first `d` bits. -/
def restrictEntries (pi : List Bool) (d : Nat) (es : List Entry) : List Entry :=
  es.filter (fun e => decide (e.1.take d = pi.take d))

/-- The entry contributed by the target key itself: its path plus the leaf
hash of the given value, or nothing for an absent value. -/
def targetEntry (keyHash : Hash32) : Option (List Nat) → List Entry
  | some v => [(pathOf keyHash, hash_leaf keyHash v)]
  | none => []

/-- The target's contributed entries also carry full-depth paths. -/
theorem targetEntry_length (keyHash : Hash32) (v : Option (List Nat)) :
    ∀ e ∈ targetEntry keyHash v, e.1.length = TREE_DEPTH := by
  cases v with
  | none => intro e he; cases he
  | some val =>
      intro e he
      rcases List.mem_singleton.mp he with rfl
      exact pathOf_length keyHash

/-- Restriction to one more bit splits as restriction plus the bit test. -/
theorem restrictEntries_succ (pi : List Bool) (d : Nat) (es : List Entry)
    (hπ : d < pi.length) (hlen : ∀ e ∈ es, e.1.length = TREE_DEPTH)
    (hd : d < TREE_DEPTH) :
    restrictEntries pi (d + 1) es =
      (restrictEntries pi d es).filter
        (fun e => decide (e.1.getD d false = pi.getD d false)) := by
  rw [restrictEntries, restrictEntries, List.filter_filter]
  apply List.filter_congr
  intro e he
  have he160 : e.1.length = TREE_DEPTH := hlen e he
  have hiff := take_succ_agree (l := e.1) (m := pi) (by omega) hπ
  rw [Bool.eq_iff_iff]
  simp only [decide_eq_true_eq, Bool.and_eq_true]
  rw [hiff]
  tauto

/-- One non-trivial level of `compute_subtree_from_leaves`: away from the
leaf level, on a nonempty entry list, it hashes the two bit-partitioned
half-subtrees. -/
theorem computeSubtreeFromLeaves_step (fuel d : Nat) (l : List Entry)
    (hdne : d ≠ TREE_DEPTH) (hne : l ≠ []) :
    computeSubtreeFromLeaves (fuel + 1) d l =
      hash_nodes
        (if (l.filter (fun e => !(e.1.getD d false))).isEmpty then emptyHashes (d + 1)
         else computeSubtreeFromLeaves fuel (d + 1)
           (l.filter (fun e => !(e.1.getD d false))))
        (if (l.filter (fun e => e.1.getD d false)).isEmpty then emptyHashes (d + 1)
         else computeSubtreeFromLeaves fuel (d + 1)
           (l.filter (fun e => e.1.getD d false))) := by
  conv_lhs => rw [computeSubtreeFromLeaves.eq_def]
  dsimp only
  rw [if_neg hdne]
  rw [if_neg (by simpa [List.isEmpty_iff] using hne)]

/-- The empty-guarded subtree branch always equals the plain subtree hash. -/
theorem ite_subtree (d : Nat) (l : List Entry) :
    (if l.isEmpty then emptyHashes (d + 1)
     else computeSubtreeFromLeaves (TREE_DEPTH - (d + 1)) (d + 1) l) =
    computeSubtreeFromLeaves (TREE_DEPTH - (d + 1)) (d + 1) l := by
  by_cases h : l = []
  · subst h
    simp [computeSubtreeFromLeaves_nil]
  · rw [if_neg (by simpa [List.isEmpty_iff] using h)]

/-- `compute_subtree_hash` is the subtree hash of its filtered entries. -/
theorem computeSubtreeHash_eq_subtree (entryList : List Entry) (pref : List Bool)
    (direction : Bool) (depth : Nat) :
    computeSubtreeHash entryList pref direction depth =
      computeSubtreeFromLeaves (TREE_DEPTH - (depth + 1)) (depth + 1)
        (entryList.filter (fun e =>
          decide (depth < e.1.length) && decide (e.1.take pref.length = pref)
            && (e.1.getD pref.length false == direction))) := by
  unfold computeSubtreeHash
  exact ite_subtree depth _

/-- One level of the reconstruction: at depth `d` the restricted subtree
hash combines the restricted subtree one level down (the target's side)
with `compute_subtree_hash` of the other leaves on the opposite side, in
the order given by the target path's bit at `d`. -/
theorem subtree_step (keyHash : Hash32) (others : List Entry)
    (v : Option (List Nat)) (d : Nat) (hd : d < TREE_DEPTH)
    (hlen : ∀ e ∈ others, e.1.length = TREE_DEPTH) :
    computeSubtreeFromLeaves (TREE_DEPTH - d) d
        (restrictEntries (pathOf keyHash) d (others ++ targetEntry keyHash v)) =
      (if (pathOf keyHash).getD d false then
        hash_nodes
          (computeSubtreeHash others ((pathOf keyHash).take d)
            (!(pathOf keyHash).getD d false) d)
          (computeSubtreeFromLeaves (TREE_DEPTH - (d + 1)) (d + 1)
            (restrictEntries (pathOf keyHash) (d + 1) (others ++ targetEntry keyHash v)))
      else
        hash_nodes
          (computeSubtreeFromLeaves (TREE_DEPTH - (d + 1)) (d + 1)
            (restrictEntries (pathOf keyHash) (d + 1) (others ++ targetEntry keyHash v)))
          (computeSubtreeHash others ((pathOf keyHash).take d)
            (!(pathOf keyHash).getD d false) d)) := by
  have hπlen : (pathOf keyHash).length = TREE_DEPTH := pathOf_length keyHash
  have hlen' : ∀ e ∈ others ++ targetEntry keyHash v, e.1.length = TREE_DEPTH := by
    intro e he
    rcases List.mem_append.mp he with h | h
    · exact hlen e h
    · exact targetEntry_length keyHash v e h
  have htl : ((pathOf keyHash).take d).length = d := by
    rw [List.length_take]
    omega
  have hsucc := restrictEntries_succ (pathOf keyHash) d
    (others ++ targetEntry keyHash v) (by omega) hlen' hd
  have hsib : (restrictEntries (pathOf keyHash) d (others ++ targetEntry keyHash v)).filter
        (fun e => decide (e.1.getD d false = !(pathOf keyHash).getD d false)) =
      (others).filter (fun e =>
        decide (d < e.1.length) &&
          decide (e.1.take ((pathOf keyHash).take d).length = (pathOf keyHash).take d) &&
          (e.1.getD ((pathOf keyHash).take d).length false ==
            !(pathOf keyHash).getD d false)) := by
    rw [restrictEntries, List.filter_filter, List.filter_append]
    have htgt : (targetEntry keyHash v).filter (fun e =>
        decide (e.1.getD d false = !(pathOf keyHash).getD d false) &&
          decide (e.1.take d = (pathOf keyHash).take d)) = [] := by
      cases v with
      | none => rfl
      | some val =>
          simp [targetEntry, List.filter_cons]
    rw [htgt, List.append_nil]
    apply List.filter_congr
    intro e he
    have he160 : e.1.length = TREE_DEPTH := hlen e he
    have hedl : d < e.1.length := by omega
    rw [Bool.eq_iff_iff]
    simp only [Bool.and_eq_true, decide_eq_true_eq, beq_iff_eq, htl]
    constructor
    · rintro ⟨h1, h2⟩
      exact ⟨⟨hedl, h2⟩, h1⟩
    · rintro ⟨⟨_, h2⟩, h1⟩
      exact ⟨h1, h2⟩
  have hmine : (restrictEntries (pathOf keyHash) d (others ++ targetEntry keyHash v)).filter
        (fun e => decide (e.1.getD d false = (pathOf keyHash).getD d false)) =
      restrictEntries (pathOf keyHash) (d + 1) (others ++ targetEntry keyHash v) := by
    rw [hsucc]
  by_cases hempty : restrictEntries (pathOf keyHash) d (others ++ targetEntry keyHash v) = []
  · have hup : restrictEntries (pathOf keyHash) (d + 1)
        (others ++ targetEntry keyHash v) = [] := by
      rw [hsucc, hempty]
      rfl
    have hmempty : (others).filter (fun e =>
        decide (d < e.1.length) &&
          decide (e.1.take ((pathOf keyHash).take d).length = (pathOf keyHash).take d) &&
          (e.1.getD ((pathOf keyHash).take d).length false ==
            !(pathOf keyHash).getD d false)) = [] := by
      rw [← hsib, hempty]
      rfl
    have hmatch : computeSubtreeHash others ((pathOf keyHash).take d)
        (!(pathOf keyHash).getD d false) d = emptyHashes (d + 1) := by
      rw [computeSubtreeHash, hmempty]
      rfl
    rw [hempty, computeSubtreeFromLeaves_nil, hup, computeSubtreeFromLeaves_nil,
      hmatch, emptyHashes_succ d hd]
    rw [ite_self]
  · have hfuel : TREE_DEPTH - d = (TREE_DEPTH - (d + 1)) + 1 := by omega
    have hdne : d ≠ TREE_DEPTH := by omega
    rw [hfuel, computeSubtreeFromLeaves_step (TREE_DEPTH - (d + 1)) d _ hdne hempty]
    by_cases hbit : (pathOf keyHash).getD d false = true
    case pos =>
        have hbit2 : (pathOf keyHash)[d]?.getD false = true := by
          simpa [List.getD_eq_getElem?_getD] using hbit
        rw [if_pos hbit]
        have hlefts : (restrictEntries (pathOf keyHash) d
            (others ++ targetEntry keyHash v)).filter (fun e => !(e.1.getD d false)) =
            (others).filter (fun e =>
              decide (d < e.1.length) &&
                decide (e.1.take ((pathOf keyHash).take d).length = (pathOf keyHash).take d) &&
                (e.1.getD ((pathOf keyHash).take d).length false ==
                  !(pathOf keyHash).getD d false)) := by
          rw [← hsib]
          apply List.filter_congr
          intro e _
          cases hb : e.1.getD d false <;> simp [hb, hbit, hbit2]
        have hrights : (restrictEntries (pathOf keyHash) d
            (others ++ targetEntry keyHash v)).filter (fun e => e.1.getD d false) =
            restrictEntries (pathOf keyHash) (d + 1) (others ++ targetEntry keyHash v) := by
          rw [← hmine]
          apply List.filter_congr
          intro e _
          cases hb : e.1.getD d false <;> simp [hb, hbit, hbit2]
        rw [hlefts, hrights]
        rw [ite_subtree, ite_subtree, computeSubtreeHash_eq_subtree]
    case neg =>
        have hbitf : (pathOf keyHash).getD d false = false := by
          simpa using hbit
        have hbitf2 : (pathOf keyHash)[d]?.getD false = false := by
          simpa [List.getD_eq_getElem?_getD] using hbitf
        rw [if_neg hbit]
        have hlefts : (restrictEntries (pathOf keyHash) d
            (others ++ targetEntry keyHash v)).filter (fun e => !(e.1.getD d false)) =
            restrictEntries (pathOf keyHash) (d + 1) (others ++ targetEntry keyHash v) := by
          rw [← hmine]
          apply List.filter_congr
          intro e _
          cases hb : e.1.getD d false <;> simp [hb, hbitf, hbitf2]
        have hrights : (restrictEntries (pathOf keyHash) d
            (others ++ targetEntry keyHash v)).filter (fun e => e.1.getD d false) =
            (others).filter (fun e =>
              decide (d < e.1.length) &&
                decide (e.1.take ((pathOf keyHash).take d).length = (pathOf keyHash).take d) &&
                (e.1.getD ((pathOf keyHash).take d).length false ==
                  !(pathOf keyHash).getD d false)) := by
          rw [← hsib]
          apply List.filter_congr
          intro e _
          cases hb : e.1.getD d false <;> simp [hb, hbitf, hbitf2]
        rw [hlefts, hrights]
        rw [ite_subtree, ite_subtree, computeSubtreeHash_eq_subtree]

/-- Folding the last `j` siblings (depths `j-1` down to `0`) from the
restricted subtree hash at depth `j` reproduces the full root of the
restricted entry set. -/
theorem fold_reconstruct (keyHash : Hash32) (others : List Entry)
    (v : Option (List Nat))
    (hlen : ∀ e ∈ others, e.1.length = TREE_DEPTH) :
    ∀ j, j ≤ TREE_DEPTH →
    foldSiblingsFrom keyHash (TREE_DEPTH - j)
      (computeSubtreeFromLeaves (TREE_DEPTH - j) j
        (restrictEntries (pathOf keyHash) j (others ++ targetEntry keyHash v)))
      ((List.range j).reverse.map (fun depth =>
        computeSubtreeHash others ((pathOf keyHash).take depth)
          (!((pathOf keyHash).getD depth false)) depth)) =
    computeSubtreeFromLeaves TREE_DEPTH 0
      (restrictEntries (pathOf keyHash) 0 (others ++ targetEntry keyHash v)) := by
  intro j
  induction j with
  | zero =>
      intro _
      simp [foldSiblingsFrom]
  | succ j ih =>
      intro hj
      have hj' : j ≤ TREE_DEPTH := by omega
      have hdj : j < TREE_DEPTH := by omega
      have hsibs : ((List.range (j + 1)).reverse.map (fun depth =>
          computeSubtreeHash others ((pathOf keyHash).take depth)
            (!((pathOf keyHash).getD depth false)) depth)) =
          computeSubtreeHash others ((pathOf keyHash).take j)
              (!((pathOf keyHash).getD j false)) j ::
            ((List.range j).reverse.map (fun depth =>
              computeSubtreeHash others ((pathOf keyHash).take depth)
                (!((pathOf keyHash).getD depth false)) depth)) := by
        rw [List.range_succ, List.reverse_append]
        rfl
      rw [hsibs]
      have hstep : foldSiblingsFrom keyHash (TREE_DEPTH - (j + 1))
          (computeSubtreeFromLeaves (TREE_DEPTH - (j + 1)) (j + 1)
            (restrictEntries (pathOf keyHash) (j + 1) (others ++ targetEntry keyHash v)))
          (computeSubtreeHash others ((pathOf keyHash).take j)
              (!((pathOf keyHash).getD j false)) j ::
            ((List.range j).reverse.map (fun depth =>
              computeSubtreeHash others ((pathOf keyHash).take depth)
                (!((pathOf keyHash).getD depth false)) depth))) =
          foldSiblingsFrom keyHash (TREE_DEPTH - (j + 1) + 1)
            (if get_bit keyHash (TREE_DEPTH - 1 - (TREE_DEPTH - (j + 1))) then
              hash_nodes (computeSubtreeHash others ((pathOf keyHash).take j)
                (!((pathOf keyHash).getD j false)) j)
                (computeSubtreeFromLeaves (TREE_DEPTH - (j + 1)) (j + 1)
                  (restrictEntries (pathOf keyHash) (j + 1)
                    (others ++ targetEntry keyHash v)))
             else
              hash_nodes (computeSubtreeFromLeaves (TREE_DEPTH - (j + 1)) (j + 1)
                  (restrictEntries (pathOf keyHash) (j + 1)
                    (others ++ targetEntry keyHash v)))
                (computeSubtreeHash others ((pathOf keyHash).take j)
                  (!((pathOf keyHash).getD j false)) j))
            ((List.range j).reverse.map (fun depth =>
              computeSubtreeHash others ((pathOf keyHash).take depth)
                (!((pathOf keyHash).getD depth false)) depth)) := rfl
      rw [hstep]
      have hidx : TREE_DEPTH - 1 - (TREE_DEPTH - (j + 1)) = j := by omega
      have hi1 : TREE_DEPTH - (j + 1) + 1 = TREE_DEPTH - j := by omega
      rw [hidx, hi1]
      have hcur : (if get_bit keyHash j then
          hash_nodes (computeSubtreeHash others ((pathOf keyHash).take j)
            (!((pathOf keyHash).getD j false)) j)
            (computeSubtreeFromLeaves (TREE_DEPTH - (j + 1)) (j + 1)
              (restrictEntries (pathOf keyHash) (j + 1)
                (others ++ targetEntry keyHash v)))
         else
          hash_nodes (computeSubtreeFromLeaves (TREE_DEPTH - (j + 1)) (j + 1)
              (restrictEntries (pathOf keyHash) (j + 1)
                (others ++ targetEntry keyHash v)))
            (computeSubtreeHash others ((pathOf keyHash).take j)
              (!((pathOf keyHash).getD j false)) j)) =
          computeSubtreeFromLeaves (TREE_DEPTH - j) j
            (restrictEntries (pathOf keyHash) j (others ++ targetEntry keyHash v)) := by
        rw [show get_bit keyHash j = (pathOf keyHash).getD j false from
          (pathOf_getD keyHash j hdj).symm]
        exact (subtree_step keyHash others v j hdj hlen).symm
      rw [hcur]
      exact ih hj'

/-- The central reconstruction theorem: starting from the leaf hash of an
optional value for the target key, folding the siblings computed from the
tree's other leaves yields exactly the subtree root of those other leaves
together with the target's entry — provided no other leaf shares the
target's 160-bit path. -/
theorem fold_computes_root (leaves : List (Hash32 × List Nat)) (keyHash : Hash32)
    (v : Option (List Nat))
    (hdist : ∀ e ∈ entriesOf (leaves.filter (fun e => e.1 ≠ keyHash)),
      e.1 ≠ pathOf keyHash) :
    foldSiblingsFrom keyHash 0 (leafHashOf keyHash v) (computeSiblings leaves keyHash) =
      computeSubtreeFromLeaves TREE_DEPTH 0
        (entriesOf (leaves.filter (fun e => e.1 ≠ keyHash)) ++ targetEntry keyHash v) := by
  have hlen : ∀ e ∈ entriesOf (leaves.filter (fun e => e.1 ≠ keyHash)),
      e.1.length = TREE_DEPTH := entriesOf_length _
  have hπlen : (pathOf keyHash).length = TREE_DEPTH := pathOf_length keyHash
  have hmain := fold_reconstruct keyHash
    (entriesOf (leaves.filter (fun e => e.1 ≠ keyHash))) v hlen TREE_DEPTH (le_refl _)
  have hsibs : computeSiblings leaves keyHash =
      (List.range TREE_DEPTH).reverse.map (fun depth =>
        computeSubtreeHash (entriesOf (leaves.filter (fun e => e.1 ≠ keyHash)))
          ((pathOf keyHash).take depth)
          (!((pathOf keyHash).getD depth false)) depth) := rfl
  have hfull : restrictEntries (pathOf keyHash) TREE_DEPTH
      (entriesOf (leaves.filter (fun e => e.1 ≠ keyHash)) ++ targetEntry keyHash v) =
      targetEntry keyHash v := by
    rw [restrictEntries, List.filter_append]
    have h1 : (entriesOf (leaves.filter (fun e => e.1 ≠ keyHash))).filter
        (fun e => decide (e.1.take TREE_DEPTH = (pathOf keyHash).take TREE_DEPTH)) = [] := by
      rw [List.filter_eq_nil_iff]
      intro e he
      have he160 : e.1.length = TREE_DEPTH := hlen e he
      have hte : e.1.take TREE_DEPTH = e.1 := by
        rw [← he160, List.take_length]
      have htπ : (pathOf keyHash).take TREE_DEPTH = pathOf keyHash := by
        rw [← hπlen, List.take_length]
      simp only [hte, htπ, decide_eq_true_eq]
      exact hdist e he
    have h2 : (targetEntry keyHash v).filter
        (fun e => decide (e.1.take TREE_DEPTH = (pathOf keyHash).take TREE_DEPTH)) =
        targetEntry keyHash v := by
      rw [List.filter_eq_self]
      intro e he
      have hpe : e.1 = pathOf keyHash := by
        cases v with
        | none => cases he
        | some val => rcases List.mem_singleton.mp he with rfl; rfl
      simp [hpe]
    rw [h1, h2, List.nil_append]
  have hzero : restrictEntries (pathOf keyHash) 0
      (entriesOf (leaves.filter (fun e => e.1 ≠ keyHash)) ++ targetEntry keyHash v) =
      entriesOf (leaves.filter (fun e => e.1 ≠ keyHash)) ++ targetEntry keyHash v := by
    rw [restrictEntries, List.filter_eq_self]
    intro e _
    simp
  have hstart : computeSubtreeFromLeaves (TREE_DEPTH - TREE_DEPTH) TREE_DEPTH
      (restrictEntries (pathOf keyHash) TREE_DEPTH
        (entriesOf (leaves.filter (fun e => e.1 ≠ keyHash)) ++ targetEntry keyHash v)) =
      leafHashOf keyHash v := by
    rw [hfull]
    cases v with
    | none => rfl
    | some val => rfl
  rw [hsibs]
  rw [Nat.sub_self] at hmain
  rw [show (0 : Nat) = TREE_DEPTH - TREE_DEPTH from (Nat.sub_self _).symm]
  rw [← hstart]
  rw [show TREE_DEPTH - TREE_DEPTH = 0 from Nat.sub_self _] at *
  rw [hmain, hzero]

/-- Out of fuel away from the leaf level, a nonempty subtree computes the
zero hash. -/
theorem computeSubtreeFromLeaves_zero_fuel (d : Nat) (l : List Entry)
    (hdne : d ≠ TREE_DEPTH) (hne : l ≠ []) :
    computeSubtreeFromLeaves 0 d l = EMPTY_HASH := by
  rw [computeSubtreeFromLeaves.eq_def]
  dsimp only
  rw [if_neg hdne]
  rw [if_neg (by simpa [List.isEmpty_iff] using hne)]

/-- The subtree hash ignores the order of the entry list, as long as paths
are full-depth, pairwise distinct and agree on the prefix already fixed:
this is the order-independence the source relies on when iterating its
`HashMap` of leaves. -/
theorem subtree_perm : ∀ (fuel d : Nat) (l1 l2 : List Entry), l1.Perm l2 →
    (∀ e ∈ l1, e.1.length = TREE_DEPTH) →
    l1.Pairwise (fun a b => a.1 ≠ b.1) →
    (∀ e1 ∈ l1, ∀ e2 ∈ l1, e1.1.take d = e2.1.take d) →
    d ≤ TREE_DEPTH →
    computeSubtreeFromLeaves fuel d l1 = computeSubtreeFromLeaves fuel d l2 := by
  intro fuel
  induction fuel with
  | zero =>
      intro d l1 l2 hperm hlen hpair hagree hdle
      by_cases hdne : d = TREE_DEPTH
      · subst hdne
        cases l1 with
        | nil =>
            rw [List.Perm.eq_nil hperm.symm]
        | cons e es =>
            cases es with
            | nil =>
                rw [List.Perm.eq_singleton hperm.symm]
            | cons e' es' =>
                exfalso
                have h1 : e.1.take TREE_DEPTH = e'.1.take TREE_DEPTH :=
                  hagree e (by simp) e' (by simp)
                have hl1 : e.1.length = TREE_DEPTH := hlen e (by simp)
                have hl2 : e'.1.length = TREE_DEPTH := hlen e' (by simp)
                have heq : e.1 = e'.1 := by
                  rw [← List.take_length (l := e.1), hl1, h1, ← hl2, List.take_length]
                have hne := (List.pairwise_cons.mp hpair).1 e' (by simp)
                exact hne heq
      · cases hl1 : l1 with
        | nil =>
            rw [hl1] at hperm
            rw [List.Perm.eq_nil hperm.symm]
        | cons e es =>
            have hne1 : l1 ≠ [] := by rw [hl1]; simp
            have hne2 : l2 ≠ [] := by
              intro h
              rw [h] at hperm
              exact hne1 (List.Perm.eq_nil hperm)
            rw [← hl1]
            rw [computeSubtreeFromLeaves_zero_fuel d l1 hdne hne1,
              computeSubtreeFromLeaves_zero_fuel d l2 hdne hne2]
  | succ fuel ih =>
      intro d l1 l2 hperm hlen hpair hagree hdle
      by_cases hdne : d = TREE_DEPTH
      · subst hdne
        cases l1 with
        | nil =>
            rw [List.Perm.eq_nil hperm.symm]
        | cons e es =>
            cases es with
            | nil =>
                rw [List.Perm.eq_singleton hperm.symm]
            | cons e' es' =>
                exfalso
                have h1 : e.1.take TREE_DEPTH = e'.1.take TREE_DEPTH :=
                  hagree e (by simp) e' (by simp)
                have hl1 : e.1.length = TREE_DEPTH := hlen e (by simp)
                have hl2 : e'.1.length = TREE_DEPTH := hlen e' (by simp)
                have heq : e.1 = e'.1 := by
                  rw [← List.take_length (l := e.1), hl1, h1, ← hl2, List.take_length]
                have hne := (List.pairwise_cons.mp hpair).1 e' (by simp)
                exact hne heq
      · by_cases hne1 : l1 = []
        · subst hne1
          rw [List.Perm.eq_nil hperm.symm]
        · have hne2 : l2 ≠ [] := by
            intro h
            rw [h] at hperm
            exact hne1 (List.Perm.eq_nil hperm)
          have hdlt : d < TREE_DEPTH := by omega
          rw [computeSubtreeFromLeaves_step fuel d l1 hdne hne1,
            computeSubtreeFromLeaves_step fuel d l2 hdne hne2]
          have hsides : ∀ p : Entry → Bool,
              (∀ e1 ∈ l1.filter p, ∀ e2 ∈ l1.filter p,
                e1.1.getD d false = e2.1.getD d false) →
              (if (l1.filter p).isEmpty then emptyHashes (d + 1)
               else computeSubtreeFromLeaves fuel (d + 1) (l1.filter p)) =
              (if (l2.filter p).isEmpty then emptyHashes (d + 1)
               else computeSubtreeFromLeaves fuel (d + 1) (l2.filter p)) := by
            intro p hbits
            have hpf : (l1.filter p).Perm (l2.filter p) := hperm.filter p
            by_cases hfe : l1.filter p = []
            · rw [hfe] at hpf
              rw [hfe, List.Perm.eq_nil hpf.symm]
            · have hfe2 : l2.filter p ≠ [] := by
                intro h
                rw [h] at hpf
                exact hfe (List.Perm.eq_nil hpf)
              rw [if_neg (by simpa [List.isEmpty_iff] using hfe),
                if_neg (by simpa [List.isEmpty_iff] using hfe2)]
              apply ih (d + 1) _ _ hpf
              · intro e he
                exact hlen e (List.mem_of_mem_filter he)
              · exact List.Pairwise.sublist (List.filter_sublist _) hpair
              · intro e1 he1 e2 he2
                have hlen1 : e1.1.length = TREE_DEPTH :=
                  hlen e1 (List.mem_of_mem_filter he1)
                have hlen2 : e2.1.length = TREE_DEPTH :=
                  hlen e2 (List.mem_of_mem_filter he2)
                rw [take_succ_agree (by omega) (by omega)]
                exact ⟨hagree e1 (List.mem_of_mem_filter he1) e2
                  (List.mem_of_mem_filter he2), hbits e1 he1 e2 he2⟩
              · omega
          rw [hsides (fun e => !(e.1.getD d false)) ?_, hsides (fun e => e.1.getD d false) ?_]
          · intro e1 he1 e2 he2
            have h1 : e1.1.getD d false = true := by
              simpa using (List.mem_filter.mp he1).2
            have h2 : e2.1.getD d false = true := by
              simpa using (List.mem_filter.mp he2).2
            rw [h1, h2]
          · intro e1 he1 e2 he2
            have h1 : e1.1.getD d false = false := by
              simpa using (List.mem_filter.mp he1).2
            have h2 : e2.1.getD d false = false := by
              simpa using (List.mem_filter.mp he2).2
            rw [h1, h2]

/-- An absent key means every stored key differs from it. -/
theorem lookupLeaf_none_forall {l : List (Hash32 × List Nat)} {k : Hash32}
    (h : lookupLeaf l k = none) : ∀ e ∈ l, e.1 ≠ k := by
  induction l with
  | nil => intro e he; cases he
  | cons e rest ih =>
      intro x hx
      by_cases hek : e.1 = k
      · rw [lookupLeaf, if_pos hek] at h
        cases h
      · rw [lookupLeaf, if_neg hek] at h
        rcases List.mem_cons.mp hx with rfl | hx'
        · exact hek
        · exact ih h x hx'

/-- Filtering out an absent key changes nothing. -/
theorem filter_ne_of_lookup_none {l : List (Hash32 × List Nat)} {k : Hash32}
    (h : lookupLeaf l k = none) : l.filter (fun e => e.1 ≠ k) = l := by
  rw [List.filter_eq_self]
  intro e he
  simpa using lookupLeaf_none_forall h e he

/-- With unique keys, a map splits (up to order) into the binding of a
present key and the rest. -/
theorem perm_filter_of_lookup_some {l : List (Hash32 × List Nat)} {k : Hash32}
    {v : List Nat} (hnd : (l.map Prod.fst).Nodup)
    (h : lookupLeaf l k = some v) :
    l.Perm (l.filter (fun e => e.1 ≠ k) ++ [(k, v)]) := by
  induction l with
  | nil => cases h
  | cons e rest ih =>
      by_cases hek : e.1 = k
      · rw [lookupLeaf, if_pos hek] at h
        have hv : e.2 = v := by
          injection h
        have hkrest : ∀ x ∈ rest, x.1 ≠ k := by
          intro x hx hxk
          have : e.1 ∈ rest.map Prod.fst := by
            rw [hek, ← hxk]
            exact List.mem_map_of_mem Prod.fst hx
          exact (List.nodup_cons.mp hnd).1 this
        have hfe : (e :: rest).filter (fun e => e.1 ≠ k) = rest := by
          rw [List.filter_cons]
          simp only [hek]
          rw [if_neg (by simp)]
          rw [List.filter_eq_self]
          intro x hx
          simpa using hkrest x hx
        rw [hfe]
        have hekv : e = (k, v) := by
          rw [← hek, ← hv]
        rw [hekv]
        exact (List.perm_append_singleton (k, v) rest).symm
      · rw [lookupLeaf, if_neg hek] at h
        have hrec := ih (List.nodup_cons.mp hnd).2 h
        have hfe : (e :: rest).filter (fun e => e.1 ≠ k) =
            e :: rest.filter (fun e => e.1 ≠ k) := by
          rw [List.filter_cons]
          simp [hek]
        rw [hfe, List.cons_append]
        exact hrec.cons e

/-- No other leaf's path equals the target's path, from the path
distinctness of the key against the remaining keys. -/
theorem entries_ne_target_path (leaves : List (Hash32 × List Nat)) (keyHash : Hash32)
    (hpaths : (keyHash :: (leaves.filter (fun e => e.1 ≠ keyHash)).map Prod.fst).Pairwise
      (fun a b => pathOf a ≠ pathOf b)) :
    ∀ e ∈ entriesOf (leaves.filter (fun e => e.1 ≠ keyHash)), e.1 ≠ pathOf keyHash := by
  intro e he
  simp only [entriesOf, List.mem_map] at he
  obtain ⟨x, hx, hxe⟩ := he
  have hhead := (List.pairwise_cons.mp hpaths).1 x.1 (List.mem_map_of_mem Prod.fst hx)
  rw [← hxe]
  exact fun h => hhead h.symm

/-- The entry list of the other leaves plus the target entry has pairwise
distinct paths. -/
theorem entries_target_pairwise (leaves : List (Hash32 × List Nat)) (keyHash : Hash32)
    (v : Option (List Nat))
    (hpaths : (keyHash :: (leaves.filter (fun e => e.1 ≠ keyHash)).map Prod.fst).Pairwise
      (fun a b => pathOf a ≠ pathOf b)) :
    (entriesOf (leaves.filter (fun e => e.1 ≠ keyHash)) ++
      targetEntry keyHash v).Pairwise (fun a b => a.1 ≠ b.1) := by
  rw [List.pairwise_append]
  refine ⟨?_, ?_, ?_⟩
  · rw [entriesOf, List.pairwise_map]
    have htail := (List.pairwise_cons.mp hpaths).2
    rw [List.pairwise_map] at htail
    exact htail
  · cases v with
    | none => exact List.Pairwise.nil
    | some val => exact List.pairwise_singleton _ _
  · intro a ha b hb
    have hbp : b.1 = pathOf keyHash := by
      cases v with
      | none => cases hb
      | some val => rcases List.mem_singleton.mp hb with rfl; rfl
    rw [hbp]
    exact entries_ne_target_path leaves keyHash hpaths a ha

/-- The witness fold over the current value reproduces the tree's root. -/
theorem oldFold_eq_root (t : SparseMerkleTree) (keyHash : Hash32)
    (hnodup : (t.leaves.map Prod.fst).Nodup)
    (hpaths : (keyHash :: (t.leaves.filter (fun e => e.1 ≠ keyHash)).map Prod.fst).Pairwise
      (fun a b => pathOf a ≠ pathOf b)) :
    foldSiblingsFrom keyHash 0 (leafHashOf keyHash (lookupLeaf t.leaves keyHash))
      (computeSiblings t.leaves keyHash) = t.root := by
  have hdist := entries_ne_target_path t.leaves keyHash hpaths
  cases hlook : lookupLeaf t.leaves keyHash with
  | none =>
      rw [fold_computes_root t.leaves keyHash none hdist]
      rw [show targetEntry keyHash none = [] from rfl, List.append_nil,
        filter_ne_of_lookup_none hlook]
      rfl
  | some oldv =>
      rw [fold_computes_root t.leaves keyHash (some oldv) hdist]
      have hperm_raw := perm_filter_of_lookup_some hnodup hlook
      have hmapped := hperm_raw.map (fun e => (pathOf e.1, hash_leaf e.1 e.2))
      have hsplit : entriesOf ((t.leaves.filter (fun e => e.1 ≠ keyHash)) ++
          [(keyHash, oldv)]) =
          entriesOf (t.leaves.filter (fun e => e.1 ≠ keyHash)) ++
            targetEntry keyHash (some oldv) := by
        rw [entriesOf, List.map_append]
        rfl
      have hperm : (entriesOf (t.leaves.filter (fun e => e.1 ≠ keyHash)) ++
          targetEntry keyHash (some oldv)).Perm (entriesOf t.leaves) := by
        rw [← hsplit]
        exact hmapped.symm
      have hres := subtree_perm TREE_DEPTH 0 _ _ hperm
        (by
          intro e he
          rcases List.mem_append.mp he with h | h
          · exact entriesOf_length _ e h
          · exact targetEntry_length keyHash (some oldv) e h)
        (entries_target_pairwise t.leaves keyHash (some oldv) hpaths)
        (by intro e1 _ e2 _; simp)
        (by omega)
      exact hres

/-- The witness fold over the inserted value reproduces the mutated tree's
root. -/
theorem newFold_insert (t : SparseMerkleTree) (keyHash : Hash32) (value : List Nat)
    (hpaths : (keyHash :: (t.leaves.filter (fun e => e.1 ≠ keyHash)).map Prod.fst).Pairwise
      (fun a b => pathOf a ≠ pathOf b)) :
    foldSiblingsFrom keyHash 0 (leafHashOf keyHash (some value))
      (computeSiblings t.leaves keyHash) =
      rootFromLeaves (insertAssoc t.leaves keyHash value) := by
  have hdist := entries_ne_target_path t.leaves keyHash hpaths
  rw [fold_computes_root t.leaves keyHash (some value) hdist]
  have hsplit : entriesOf ((t.leaves.filter (fun e => e.1 ≠ keyHash)) ++
      [(keyHash, value)]) =
      entriesOf (t.leaves.filter (fun e => e.1 ≠ keyHash)) ++
        targetEntry keyHash (some value) := by
    rw [entriesOf, List.map_append]
    rfl
  rw [rootFromLeaves, insertAssoc, hsplit]

/-- The witness fold over the removed value reproduces the mutated tree's
root. -/
theorem newFold_delete (t : SparseMerkleTree) (keyHash : Hash32)
    (hpaths : (keyHash :: (t.leaves.filter (fun e => e.1 ≠ keyHash)).map Prod.fst).Pairwise
      (fun a b => pathOf a ≠ pathOf b)) :
    foldSiblingsFrom keyHash 0 (leafHashOf keyHash none)
      (computeSiblings t.leaves keyHash) =
      rootFromLeaves (removeAssoc t.leaves keyHash) := by
  have hdist := entries_ne_target_path t.leaves keyHash hpaths
  rw [fold_computes_root t.leaves keyHash none hdist]
  rw [show targetEntry keyHash none = [] from rfl, List.append_nil]
  rfl

/-- C4: for every tree state whose keys are unique and whose 160-bit paths
(including the target's) are pairwise distinct, the witness returned by
`insert_by_hash` or `delete_by_hash` recomputes the root immediately
before the mutation as its old root and the root immediately after as its
new root; deleting an absent key returns a witness with no old and no new
value whose two roots both equal the unchanged current root. -/
theorem C4_update_witness_roots (t : SparseMerkleTree) (keyHash : Hash32)
    (value : List Nat)
    (hnodup : (t.leaves.map Prod.fst).Nodup)
    (hpaths : (keyHash :: (t.leaves.filter (fun e => e.1 ≠ keyHash)).map Prod.fst).Pairwise
      (fun a b => pathOf a ≠ pathOf b)) :
    ((t.insert_by_hash keyHash value).1.compute_old_root = t.root ∧
     (t.insert_by_hash keyHash value).1.compute_new_root =
       (t.insert_by_hash keyHash value).2.root) ∧
    ((t.delete_by_hash keyHash).1.compute_old_root = t.root ∧
     (t.delete_by_hash keyHash).1.compute_new_root =
       (t.delete_by_hash keyHash).2.root) ∧
    (lookupLeaf t.leaves keyHash = none →
      (t.delete_by_hash keyHash).1.old_value = none ∧
      (t.delete_by_hash keyHash).1.new_value = none ∧
      (t.delete_by_hash keyHash).1.compute_old_root = t.root ∧
      (t.delete_by_hash keyHash).1.compute_new_root = t.root ∧
      (t.delete_by_hash keyHash).2.root = t.root) := by
  have hold := oldFold_eq_root t keyHash hnodup hpaths
  refine ⟨⟨hold, newFold_insert t keyHash value hpaths⟩,
    ⟨hold, newFold_delete t keyHash hpaths⟩, ?_⟩
  intro hlook
  have hsame : rootFromLeaves (removeAssoc t.leaves keyHash) = t.root := by
    rw [removeAssoc, filter_ne_of_lookup_none hlook]
    rfl
  refine ⟨hlook, rfl, hold, ?_, hsame⟩
  rw [show (t.delete_by_hash keyHash).1.compute_new_root =
    foldSiblingsFrom keyHash 0 (leafHashOf keyHash none)
      (computeSiblings t.leaves keyHash) from rfl]
  rw [newFold_delete t keyHash hpaths, hsame]

/-- C4 witness: on the empty tree, inserting and deleting under the
all-five key hash satisfy every conjunct, including the absent-delete
case. -/
theorem C4_update_witness_roots_witness :
    ((⟨[]⟩ : SparseMerkleTree).leaves.map Prod.fst).Nodup ∧
    (((List.replicate 32 5 : Hash32) ::
      ((⟨[]⟩ : SparseMerkleTree).leaves.filter
        (fun e => e.1 ≠ List.replicate 32 5)).map Prod.fst).Pairwise
      (fun a b => pathOf a ≠ pathOf b)) ∧
    lookupLeaf (⟨[]⟩ : SparseMerkleTree).leaves (List.replicate 32 5) = none ∧
    (((⟨[]⟩ : SparseMerkleTree).insert_by_hash (List.replicate 32 5) [9]).1.compute_old_root =
      (⟨[]⟩ : SparseMerkleTree).root ∧
     ((⟨[]⟩ : SparseMerkleTree).insert_by_hash (List.replicate 32 5) [9]).1.compute_new_root =
      ((⟨[]⟩ : SparseMerkleTree).insert_by_hash (List.replicate 32 5) [9]).2.root) ∧
    (((⟨[]⟩ : SparseMerkleTree).delete_by_hash (List.replicate 32 5)).1.old_value = none ∧
     ((⟨[]⟩ : SparseMerkleTree).delete_by_hash (List.replicate 32 5)).1.new_value = none ∧
     ((⟨[]⟩ : SparseMerkleTree).delete_by_hash (List.replicate 32 5)).1.compute_old_root =
      (⟨[]⟩ : SparseMerkleTree).root ∧
     ((⟨[]⟩ : SparseMerkleTree).delete_by_hash (List.replicate 32 5)).1.compute_new_root =
      (⟨[]⟩ : SparseMerkleTree).root ∧
     ((⟨[]⟩ : SparseMerkleTree).delete_by_hash (List.replicate 32 5)).2.root =
      (⟨[]⟩ : SparseMerkleTree).root) := by
  refine ⟨by decide, by decide, by decide, ?_, ?_⟩
  · exact (C4_update_witness_roots ⟨[]⟩ (List.replicate 32 5) [9]
      (by decide) (by decide)).1
  · exact (C4_update_witness_roots ⟨[]⟩ (List.replicate 32 5) [9]
      (by decide) (by decide)).2.2 (by decide)

/-- C5: for every tree state with pairwise distinct paths, a key that is
not present in the leaf map gets a proof with `value = None` that verifies
against the tree's current root. -/
theorem C5_nonmembership_proof (t : SparseMerkleTree) (keyHash : Hash32)
    (habs : lookupLeaf t.leaves keyHash = none)
    (hpaths : (keyHash :: t.leaves.map Prod.fst).Pairwise
      (fun a b => pathOf a ≠ pathOf b)) :
    (t.get_proof_by_hash keyHash).value = none ∧
    (t.get_proof_by_hash keyHash).verify t.root = true := by
  have hfe : t.leaves.filter (fun e => e.1 ≠ keyHash) = t.leaves :=
    filter_ne_of_lookup_none habs
  have hpaths' : (keyHash :: (t.leaves.filter (fun e => e.1 ≠ keyHash)).map Prod.fst).Pairwise
      (fun a b => pathOf a ≠ pathOf b) := by
    rw [hfe]
    exact hpaths
  have hdist := entries_ne_target_path t.leaves keyHash hpaths'
  have hroot : (t.get_proof_by_hash keyHash).compute_root = t.root := by
    rw [show (t.get_proof_by_hash keyHash).compute_root =
      foldSiblingsFrom keyHash 0 (leafHashOf keyHash (lookupLeaf t.leaves keyHash))
        (computeSiblings t.leaves keyHash) from rfl]
    rw [habs, fold_computes_root t.leaves keyHash none hdist]
    rw [show targetEntry keyHash none = [] from rfl, List.append_nil, hfe]
    rfl
  refine ⟨habs, ?_⟩
  rw [MerkleProof.verify, hroot]
  simp

/-- C5 witness: on the empty tree, the all-three key hash is absent, its
proof carries no value and verifies against the empty root. -/
theorem C5_nonmembership_proof_witness :
    lookupLeaf (⟨[]⟩ : SparseMerkleTree).leaves (List.replicate 32 3) = none ∧
    (((List.replicate 32 3 : Hash32) ::
      (⟨[]⟩ : SparseMerkleTree).leaves.map Prod.fst).Pairwise
      (fun a b => pathOf a ≠ pathOf b)) ∧
    ((⟨[]⟩ : SparseMerkleTree).get_proof_by_hash (List.replicate 32 3)).value = none ∧
    ((⟨[]⟩ : SparseMerkleTree).get_proof_by_hash (List.replicate 32 3)).verify
      (⟨[]⟩ : SparseMerkleTree).root = true := by
  refine ⟨by decide, by decide, ?_, ?_⟩
  · exact (C5_nonmembership_proof ⟨[]⟩ (List.replicate 32 3) (by decide) (by decide)).1
  · exact (C5_nonmembership_proof ⟨[]⟩ (List.replicate 32 3) (by decide) (by decide)).2
